import Mathlib

/-!
Verification of the Hybrid Ranking & Diversity Selection Engine of the
tech-econ repository.

Part A embeds the engagement aggregation, score normalization and hybrid
scoring of `scripts/rank_all_content.py`; Part B embeds the diversity
selection pipeline (hero, type coverage, MMR) of
`scripts/postprocess_clusters.py`.

Numbers are modelled as rationals (`ℚ`): every constant appearing in the
embedded code paths (signal weights, the 0.3 cold-start discount, the MMR
lambda) is a decimal literal in the source, and the arithmetic performed on
them (sums, products, min/max scaling) stays inside `ℚ`.
-/

namespace TechEcon

/-! ### Part A: engagement aggregation (`rank_all_content.py`) -/

/-- Signal weight `CLICK_WEIGHT = 5.0`. -/
def CLICK_WEIGHT : ℚ := 5

/-- Signal weight `IMPRESSION_WEIGHT = 0.5`. -/
def IMPRESSION_WEIGHT : ℚ := 1/2

/-- Signal weight `VIEWABLE_WEIGHT = 0.1` (per viewable second). -/
def VIEWABLE_WEIGHT : ℚ := 1/10

/-- Signal weight `DWELL_WEIGHT = 1.0` (per minute). -/
def DWELL_WEIGHT : ℚ := 1

/-- Signal weight `SCROLL_90_WEIGHT = 2.0`. -/
def SCROLL_90_WEIGHT : ℚ := 2

/-- Signal weight `SCROLL_75_WEIGHT = 1.0`. -/
def SCROLL_75_WEIGHT : ℚ := 1

/-- Signal weight `SCROLL_50_WEIGHT = 0.5`. -/
def SCROLL_50_WEIGHT : ℚ := 1/2

/-- Signal weight `SEARCH_CLICK_WEIGHT = 3.0`. -/
def SEARCH_CLICK_WEIGHT : ℚ := 3

/-- Signal weight `RAGE_CLICK_WEIGHT = -2.0`. -/
def RAGE_CLICK_WEIGHT : ℚ := -2

/-- Signal weight `QUICK_BOUNCE_WEIGHT = -1.0`. -/
def QUICK_BOUNCE_WEIGHT : ℚ := -1

/-- Signal weight `DEEP_SESSION_WEIGHT = 1.5`. -/
def DEEP_SESSION_WEIGHT : ℚ := 3/2

/-- Signal weight `COVIEW_WEIGHT = 0.1`. -/
def COVIEW_WEIGHT : ℚ := 1/10

/-- Signal weight `COCLICK_WEIGHT = 0.3`. -/
def COCLICK_WEIGHT : ℚ := 3/10

/-- Python `s.strip()` on a character list: drop whitespace from both ends. -/
def stripWs (s : List Char) : List Char :=
  ((s.dropWhile Char.isWhitespace).reverse.dropWhile Char.isWhitespace).reverse

/-- The name normalization applied throughout `rank_all_content.py`:
`row['name'].lower().strip()`. -/
def normName (s : String) : String :=
  String.mk (stripWs (s.data.map Char.toLower))

/-- Row of the `content_clicks` table: `name, click_count`. -/
structure ClickRow where
  name : String
  click_count : ℕ
deriving DecidableEq

/-- Row of the `content_impressions` table: `name, impression_count`. -/
structure ImpressionRow where
  name : String
  impression_count : ℕ
deriving DecidableEq

/-- Aggregated row of the `content_dwell` table:
`name, SUM(dwell_ms), SUM(viewable_seconds)`. -/
structure DwellRow where
  name : String
  total_dwell : ℕ
  total_viewable : ℕ
deriving DecidableEq

/-- Aggregated row of the `scroll_milestones` table: `path, milestone, count`. -/
structure ScrollRow where
  path : String
  milestone : ℕ
  count : ℕ
deriving DecidableEq

/-- A `search_sessions` row; its `clicks` JSON list is modelled as the list of
clicked item identifiers (the code accepts both `{id: ...}` dicts and plain
strings and reads the identifier from either). -/
structure SearchClickRow where
  clicks : List String
deriving DecidableEq

/-- A deep-engagement `session_features` row; `content_sequence` is the list
of item names visited in the session. -/
structure DeepSessionRow where
  content_sequence : List String
deriving DecidableEq

/-- Aggregated row of the `frustration_events` table:
`path, event_type, count`. -/
structure FrustrationRow where
  path : String
  event_type : String
  count : ℕ
deriving DecidableEq

/-- Row of the `item_cooccurrence` table. -/
structure CooccurrenceRow where
  item_a : String
  item_b : String
  coview_count : ℕ
  coclick_count : ℕ
deriving DecidableEq

/-- The dictionary returned by `fetch_engagement_data()`. -/
structure EngagementData where
  clicks : List ClickRow
  impressions : List ImpressionRow
  dwell : List DwellRow
  scroll : List ScrollRow
  search_clicks : List SearchClickRow
  session_tiers : List DeepSessionRow
  frustration : List FrustrationRow
  cooccurrence : List CooccurrenceRow
deriving DecidableEq

/-- Python `s.strip('/')` on the character list of a path. -/
def stripSlashes (s : List Char) : List Char :=
  ((s.dropWhile (· = '/')).reverse.dropWhile (· = '/')).reverse

/-- The character mapping of `parts[-1].lower().replace('-', ' ').replace('_', ' ')`. -/
def pathChar (c : Char) : Char :=
  if c = '-' ∨ c = '_' then ' ' else c.toLower

/-- `extract_item_name_from_path`: take the last segment of the slash-stripped
path when it has at least two segments, lowercased and with `-`/`_` turned
into spaces; `None` otherwise. -/
def extract_item_name_from_path (path : String) : Option String :=
  if path = "" then none
  else
    let parts := (stripSlashes path.data).splitOn '/'
    if 2 ≤ parts.length then
      some (String.mk ((parts.getLastD []).map pathChar))
    else none

/-!
`build_engagement_scores` accumulates `scores[name] += contribution` over the
rows of each signal table (a `defaultdict(float)`).  The value the final
dictionary holds at a given key is therefore the sum, over all rows, of the
contributions made to that key; the per-signal components below are those
sums, written as one `List.sum` per source loop.
-/

/-- Contribution of the clicks loop to key `name`:
`scores[name] += count * CLICK_WEIGHT`. -/
def clickComponent (d : EngagementData) (name : String) : ℚ :=
  (d.clicks.map (fun r =>
    if normName r.name = name then (r.click_count : ℚ) * CLICK_WEIGHT else 0)).sum

/-- Total click count accumulated for `name` (the `item_signals` counter). -/
def clickTotal (d : EngagementData) (name : String) : ℕ :=
  (d.clicks.map (fun r => if normName r.name = name then r.click_count else 0)).sum

/-- Contribution of the impressions loop to key `name`. -/
def impressionComponent (d : EngagementData) (name : String) : ℚ :=
  (d.impressions.map (fun r =>
    if normName r.name = name then (r.impression_count : ℚ) * IMPRESSION_WEIGHT else 0)).sum

/-- Contribution of the dwell loop to key `name`: minutes (`ms / 60000`)
weighted by `DWELL_WEIGHT` plus viewable seconds weighted by
`VIEWABLE_WEIGHT`. -/
def dwellComponent (d : EngagementData) (name : String) : ℚ :=
  (d.dwell.map (fun r =>
    if normName r.name = name then
      (r.total_dwell : ℚ) / 60000 * DWELL_WEIGHT + (r.total_viewable : ℚ) * VIEWABLE_WEIGHT
    else 0)).sum

/-- Contribution of one scroll row to key `name`: the milestone cascade
`>= 90`, `>= 75`, `>= 50` with the per-branch weights; the extracted path name
must be truthy (`if name:`). -/
def scrollRowContrib (name : String) (r : ScrollRow) : ℚ :=
  match extract_item_name_from_path r.path with
  | some n =>
      if n = name ∧ n ≠ "" then
        if 90 ≤ r.milestone then (r.count : ℚ) * SCROLL_90_WEIGHT
        else if 75 ≤ r.milestone then (r.count : ℚ) * SCROLL_75_WEIGHT
        else if 50 ≤ r.milestone then (r.count : ℚ) * SCROLL_50_WEIGHT
        else 0
      else 0
  | none => 0

/-- Contribution of the scroll loop to key `name`. -/
def scrollComponent (d : EngagementData) (name : String) : ℚ :=
  (d.scroll.map (scrollRowContrib name)).sum

/-- Contribution of the search-to-click loop to key `name`: each truthy
clicked identifier adds `SEARCH_CLICK_WEIGHT` once. -/
def searchComponent (d : EngagementData) (name : String) : ℚ :=
  (d.search_clicks.map (fun r =>
    (r.clicks.map (fun c =>
      if normName c = name ∧ normName c ≠ "" then SEARCH_CLICK_WEIGHT else 0)).sum)).sum

/-- Contribution of the deep-session loop to key `name`: every occurrence in a
deep session's `content_sequence` adds `DEEP_SESSION_WEIGHT` (no truthiness
check in the source). -/
def deepComponent (d : EngagementData) (name : String) : ℚ :=
  (d.session_tiers.map (fun r =>
    (r.content_sequence.map (fun c =>
      if normName c = name then DEEP_SESSION_WEIGHT else 0)).sum)).sum

/-- Contribution of one frustration row to key `name` (negative weights). -/
def frustrationRowContrib (name : String) (r : FrustrationRow) : ℚ :=
  match extract_item_name_from_path r.path with
  | some n =>
      if n = name ∧ n ≠ "" then
        if r.event_type = "rage_click" then (r.count : ℚ) * RAGE_CLICK_WEIGHT
        else if r.event_type = "quick_bounce" then (r.count : ℚ) * QUICK_BOUNCE_WEIGHT
        else 0
      else 0
  | none => 0

/-- Contribution of the frustration loop to key `name`. -/
def frustrationComponent (d : EngagementData) (name : String) : ℚ :=
  (d.frustration.map (frustrationRowContrib name)).sum

/-- Boost one co-occurrence row distributes to each of its two items. -/
def cooccurBoost (r : CooccurrenceRow) : ℚ :=
  (r.coview_count : ℚ) * COVIEW_WEIGHT + (r.coclick_count : ℚ) * COCLICK_WEIGHT

/-- Contribution of the co-occurrence pass to key `name`: each row boosts both
`item_a` and `item_b`. -/
def cooccurComponent (d : EngagementData) (name : String) : ℚ :=
  (d.cooccurrence.map (fun r =>
    (if normName r.item_a = name then cooccurBoost r else 0) +
    (if normName r.item_b = name then cooccurBoost r else 0))).sum

/-- The value `scores[name]` holds after all accumulation loops of
`build_engagement_scores`, before the final clamp. -/
def preScore (d : EngagementData) (name : String) : ℚ :=
  clickComponent d name + impressionComponent d name + dwellComponent d name +
  scrollComponent d name + searchComponent d name + deepComponent d name +
  frustrationComponent d name + cooccurComponent d name

/-- Python `max(a, b)` on rationals, written so that the kernel can evaluate
it on concrete inputs. -/
def pymax (a b : ℚ) : ℚ := if a ≤ b then b else a

/-- Python `min(a, b)` on rationals. -/
def pymin (a b : ℚ) : ℚ := if b ≤ a then b else a

/-- The clamped engagement score: `scores[name] = max(0, scores[name])`. -/
def rawScore (d : EngagementData) (name : String) : ℚ :=
  pymax 0 (preScore d name)

/-!
Score dictionaries are modelled as association lists `List (String × ℚ)`
in insertion order; `lookupD m k v` is Python's `m.get(k, v)`.
-/

/-- Python `dict.get(k, dflt)` on an association list. -/
def lookupD (m : List (String × ℚ)) (k : String) (dflt : ℚ) : ℚ :=
  match m.find? (fun p => p.1 = k) with
  | some p => p.2
  | none => dflt

/-- `min(values)` of a nonempty value list (`0` for the empty list, which the
source never queries). -/
def listMin : List ℚ → ℚ
  | [] => 0
  | x :: xs => xs.foldl pymin x

/-- `max(values)` of a nonempty value list. -/
def listMax : List ℚ → ℚ
  | [] => 0
  | x :: xs => xs.foldl pymax x

/-- `normalize_scores`: min-max scale the values of a score dictionary to
`[0,1]`; an empty dictionary gives `{}` and a zero-range dictionary maps every
key to `0.5`. -/
def normalize_scores (scores : List (String × ℚ)) : List (String × ℚ) :=
  if scores.isEmpty then []
  else if listMax (scores.map (·.2)) = listMin (scores.map (·.2)) then
    scores.map (fun p => (p.1, (1 : ℚ)/2))
  else
    scores.map (fun p =>
      (p.1, (p.2 - listMin (scores.map (·.2))) /
        (listMax (scores.map (·.2)) - listMin (scores.map (·.2)))))

/-- The keys the `scores` defaultdict of `build_engagement_scores` ends up
with: a key is created exactly when some loop adds a contribution to it
(clicks, impressions and dwell rows key unconditionally; scroll rows only at a
recognised milestone; search clicks only for truthy identifiers; deep sessions
for every sequence entry; frustration rows only for recognised event types;
co-occurrence rows key both items). -/
def score_keys (d : EngagementData) : List String :=
  d.clicks.map (fun r => normName r.name)
  ++ d.impressions.map (fun r => normName r.name)
  ++ d.dwell.map (fun r => normName r.name)
  ++ d.scroll.filterMap (fun r =>
      match extract_item_name_from_path r.path with
      | some n => if n ≠ "" ∧ 50 ≤ r.milestone then some n else none
      | none => none)
  ++ d.search_clicks.flatMap (fun r => (r.clicks.map normName).filter (fun n => n ≠ ""))
  ++ d.session_tiers.flatMap (fun r => r.content_sequence.map normName)
  ++ d.frustration.filterMap (fun r =>
      match extract_item_name_from_path r.path with
      | some n =>
          if n ≠ "" ∧ (r.event_type = "rage_click" ∨ r.event_type = "quick_bounce")
          then some n else none
      | none => none)
  ++ d.cooccurrence.flatMap (fun r => [normName r.item_a, normName r.item_b])

/-- The dictionary returned by `build_engagement_scores` (keys in first
appearance, values clamped). -/
def raw_scores (d : EngagementData) : List (String × ℚ) :=
  (score_keys d).dedup.map (fun n => (n, rawScore d n))

/-!
Coverage sets computed in `main()` (lines 851-870): only clicks, impressions,
dwell, scroll and search clicks count as "real interactions"; deep sessions,
frustration events and co-occurrence do not feed `any_interaction_names`.
-/

/-- `click_names`. -/
def click_names (d : EngagementData) : List String :=
  d.clicks.map (fun r => normName r.name)

/-- `impression_names`. -/
def impression_names (d : EngagementData) : List String :=
  d.impressions.map (fun r => normName r.name)

/-- `dwell_names`. -/
def dwell_names (d : EngagementData) : List String :=
  d.dwell.map (fun r => normName r.name)

/-- `scroll_names` (rows with a truthy path, extraction failures discarded;
empty extracted names are kept here, unlike in the scoring loop). -/
def scroll_names (d : EngagementData) : List String :=
  (d.scroll.filter (fun r => r.path ≠ "")).filterMap
    (fun r => extract_item_name_from_path r.path)

/-- `search_click_names` (the empty string is discarded at the end). -/
def search_click_names (d : EngagementData) : List String :=
  (d.search_clicks.flatMap (fun r => r.clicks.map normName)).filter (fun n => n ≠ "")

/-- `any_interaction_names = click | impression | dwell | scroll | search_click`. -/
def any_interaction_names (d : EngagementData) : List String :=
  click_names d ++ impression_names d ++ dwell_names d ++ scroll_names d
  ++ search_click_names d

/-- The `cold_start` flag emitted for an item:
`cold_start_flags[name] = name not in any_interaction_names`. -/
def cold_start_flag (d : EngagementData) (name : String) : Prop :=
  name ∉ any_interaction_names d

instance (d : EngagementData) (name : String) : Decidable (cold_start_flag d name) :=
  inferInstanceAs (Decidable (name ∉ any_interaction_names d))

/-!
The hybrid scoring step of `main()` (lines 893-911).  The regression
predictions (`regression_scores`, produced by the LightGBM/Ridge model) enter
the combination as an opaque score dictionary and are kept as a parameter
here; the claims quantify over them.
-/

/-- The per-item value of the hybrid dictionary before the final
re-normalization: an item with a real interaction takes its normalized
engagement score (`norm_engagement.get(name, 0)`), any other item takes the
normalized regression prediction discounted by `0.3`. -/
def hybrid_pre_value (d : EngagementData) (regression_scores : List (String × ℚ))
    (name : String) : ℚ :=
  if name ∈ any_interaction_names d then
    lookupD (normalize_scores (raw_scores d)) name 0
  else
    lookupD (normalize_scores regression_scores) name 0 * (3/10)

/-- The hybrid `combined_scores` dictionary before the final re-normalization,
built by the `for item in items` loop. -/
def combined_pre (d : EngagementData) (regression_scores : List (String × ℚ))
    (items : List String) : List (String × ℚ) :=
  items.map (fun name => (name, hybrid_pre_value d regression_scores name))

/-- `combined_scores = normalize_scores(combined_scores)`: the re-normalized
hybrid dictionary. -/
def combined_scores (d : EngagementData) (regression_scores : List (String × ℚ))
    (items : List String) : List (String × ℚ) :=
  normalize_scores (combined_pre d regression_scores items)

/-- The final score written into a ranking entry:
`combined_scores.get(name, 0.0)`. -/
def final_score (d : EngagementData) (regression_scores : List (String × ℚ))
    (items : List String) (name : String) : ℚ :=
  lookupD (combined_scores d regression_scores items) name 0

/-! ### Part B: diversity selection (`postprocess_clusters.py`)

The selection pipeline reads four per-item quantities: membership in
`id_to_idx` (an item "resolves" to an embedding row), the item's content
`type`, its relevance score (`compute_relevance_scores`, a float blend of
log-citations, difficulty and cosine centrality) and its hero score
(`compute_hero_score`, a float blend of media richness, log-authority,
log-stars and exponential recency), plus the pairwise `cosine_similarity` of
embeddings.  The float-valued scores and similarities are irrational-valued
in the source (`log`, `exp`, vector norms); the selection logic consumes them
opaquely, so they are modelled as arbitrary rational-valued oracles collected
in a `SelEnv`.  All claims about the selector quantify over the oracle, which
only strengthens them. -/

/-- The per-item data the selector reads. -/
structure SelEnv where
  emb : String → Bool
  typeOf : String → String
  rel : String → ℚ
  heroScore : String → ℚ
  sim : String → String → ℚ

/-- The `MIN_PER_TYPE` table (`.get(t, 0)` for missing types). -/
def MIN_PER_TYPE (t : String) : ℕ :=
  if t = "paper" then 2
  else if t = "talk" then 1
  else if t = "resource" then 1
  else if t = "package" then 1
  else if t = "book" then 1
  else 0

/-- The iteration order of `ensure_type_coverage` over types. -/
def type_order : List String :=
  ["talk", "resource", "book", "paper", "package", "dataset", "community", "career"]

/-- The inner loop `for item_id in sorted[:min_count]: if item_id not in
coverage: coverage.append(item_id)`. -/
def appendNew (cov : List String) (xs : List String) : List String :=
  xs.foldl (fun c id => if id ∈ c then c else c ++ [id]) cov

/-- Descending relevance, the key of `sort(key=lambda x: -x[1])`; Python's
sort is stable and `List.insertionSort` with this total preorder is the same
stable sort. -/
def relDesc (env : SelEnv) (a b : String) : Prop := env.rel b ≤ env.rel a

instance (env : SelEnv) : DecidableRel (relDesc env) :=
  fun a b => inferInstanceAs (Decidable (env.rel b ≤ env.rel a))

instance (env : SelEnv) : IsTotal String (relDesc env) :=
  ⟨fun a b => le_total (env.rel b) (env.rel a)⟩

instance (env : SelEnv) : IsTrans String (relDesc env) :=
  ⟨fun _ _ _ hab hbc => le_trans hbc hab⟩

/-- One `type_order` iteration of `ensure_type_coverage`: collect the
cluster's resolvable items of this type, skip the type when it has no items
or a zero minimum, otherwise append the `min_count` most relevant items not
already covered. -/
def coverageStep (env : SelEnv) (ids : List String) (cov : List String)
    (t : String) : List String :=
  let min_count := MIN_PER_TYPE t
  let type_items := ids.filter (fun id => env.emb id && (env.typeOf id = t : Bool))
  if type_items.isEmpty || min_count == 0 then cov
  else appendNew cov ((type_items.insertionSort (relDesc env)).take min_count)

/-- `ensure_type_coverage` (called by `select_diverse_items` with the default
`MIN_PER_TYPE` table). -/
def ensure_type_coverage (env : SelEnv) (ids : List String) : List String :=
  type_order.foldl (coverageStep env ids) []

/-- The hero selection loop of `select_hero`: run over the cluster items,
skip unresolvable ids, keep the strictly best `compute_hero_score` (first
occurrence wins ties; the initial best is `-inf`, modelled by `none`). -/
def heroFold (env : SelEnv) (ids : List String) : Option (String × ℚ) :=
  ids.foldl (fun best id =>
    if env.emb id then
      match best with
      | none => some (id, env.heroScore id)
      | some (b, bs) =>
          if bs < env.heroScore id then some (id, env.heroScore id) else some (b, bs)
    else best) none

/-- `select_hero`: the item of the cluster maximizing the hero score, `None`
for an empty or fully unresolvable cluster. -/
def select_hero (env : SelEnv) (ids : List String) : Option String :=
  (heroFold env ids).map (·.1)

/-- The `max_sim` accumulation of `mmr_select`'s candidate loop: the maximal
similarity of `id` to the already selected items (resolvable ones), starting
from `0.0`. -/
def maxSimTo (env : SelEnv) (selected : List String) (id : String) : ℚ :=
  selected.foldl (fun m s => if env.emb s then pymax m (env.sim id s) else m) 0

/-- The body of `mmr_select`'s candidate loop:
`lambda * rel - (1 - lambda) * max(sim(item, sel) for sel in selected)`. -/
def mmrScore (env : SelEnv) (lam : ℚ) (selected : List String) (id : String) : ℚ :=
  lam * env.rel id - (1 - lam) * maxSimTo env selected id

/-- One round of `mmr_select`: scan the remaining candidates in iteration
order, skip those without an embedding, keep the strictly best MMR score
(first occurrence wins ties). -/
def pickBest (env : SelEnv) (lam : ℚ) (selected : List String)
    (remaining : List String) : Option (String × ℚ) :=
  remaining.foldl (fun best id =>
    if env.emb id then
      let score := mmrScore env lam selected id
      match best with
      | none => some (id, score)
      | some (b, bs) => if bs < score then some (id, score) else some (b, bs)
    else best) none

/-- The `while len(selected) < num_select and remaining:` loop of
`mmr_select`; the fuel is the number of slots still to fill. -/
def mmr_go (env : SelEnv) (lam : ℚ) : ℕ → List String → List String → List String
  | 0, selected, _ => selected
  | fuel + 1, selected, remaining =>
      if remaining.isEmpty then selected
      else
        match pickBest env lam selected remaining with
        | some (b, _) => mmr_go env lam fuel (selected ++ [b]) (remaining.erase b)
        | none => selected

/-- `mmr_select`: return the candidates unchanged when there are no more of
them than slots, otherwise fill the slots greedily by maximal marginal
relevance.  The Python `remaining` is `set(candidate_ids)`, whose iteration
order the language does not fix; the model takes the candidate list itself as
the enumeration order, and claims about order sensitivity quantify over
permutations of it. -/
def mmr_select (env : SelEnv) (candidate_ids : List String) (num_select : ℕ)
    (lam : ℚ) : List String :=
  if candidate_ids.length ≤ num_select then candidate_ids
  else mmr_go env lam num_select [] candidate_ids

/-- `calculate_ild`: mean pairwise cosine distance (`1 - sim`) over the
resolvable items of the final list, `0.0` below two items. -/
def calculate_ild (env : SelEnv) (ids : List String) : ℚ :=
  let resolved := ids.filter (fun id => env.emb id)
  if resolved.length < 2 then 0
  else
    let dists := resolved.tails.flatMap (fun tl =>
      match tl with
      | [] => []
      | x :: rest => rest.map (fun y => 1 - env.sim x y))
    dists.sum / (dists.length : ℚ)

/-- The result dictionary of `select_diverse_items`. -/
structure Selection where
  hero : Option String
  types_in_carousel : List String
  ordered_items : List String
  ild_score : ℚ
deriving DecidableEq

/-- `select_diverse_items`: the full per-cluster pipeline — hero, type
coverage, MMR fill with `lambda = 0.6` on the slots left over, hero moved or
inserted at position 0 (with truncation to `max_items` in the insertion
branch). -/
def select_diverse_items (env : SelEnv) (cluster_item_ids : List String)
    (max_items : ℕ) : Selection :=
  if cluster_item_ids.isEmpty then ⟨none, [], [], 0⟩
  else
    let resolvable := cluster_item_ids.filter (fun id => env.emb id)
    if resolvable.isEmpty then ⟨none, [], cluster_item_ids.take max_items, 0⟩
    else
      let hero := select_hero env cluster_item_ids
      let type_coverage := ensure_type_coverage env cluster_item_ids
      let remaining_candidates := cluster_item_ids.filter (fun id => id ∉ type_coverage)
      let mmr_selected :=
        if type_coverage.length < max_items ∧ ¬ remaining_candidates.isEmpty then
          mmr_select env remaining_candidates (max_items - type_coverage.length) (3/5)
        else []
      let ordered₀ := type_coverage ++ mmr_selected
      let ordered_items :=
        match hero with
        | some h =>
            if h ∈ ordered₀ then h :: ordered₀.erase h
            else (h :: ordered₀).take max_items
        | none => ordered₀
      let types := ((ordered_items.filter (fun id => env.emb id)).map env.typeOf).dedup
      ⟨hero, types, ordered_items, calculate_ild env ordered_items⟩

/-- Baseline from the spec for the `lambda = 1.0` degeneration: "pure
top-k-by-relevance", a direct descending sort by relevance truncated to the
slot count. -/
def topKByRelevance (env : SelEnv) (candidate_ids : List String)
    (num_select : ℕ) : List String :=
  (candidate_ids.insertionSort (relDesc env)).take num_select

/-- One round of the spec's diversity-only greedy baseline: choose the
candidate minimizing the maximal similarity to the already selected items
(first occurrence wins ties). -/
def diversePick (env : SelEnv) (selected : List String)
    (remaining : List String) : Option (String × ℚ) :=
  remaining.foldl (fun best id =>
    if env.emb id then
      match best with
      | none => some (id, maxSimTo env selected id)
      | some (b, bs) =>
          if maxSimTo env selected id < bs then some (id, maxSimTo env selected id)
          else some (b, bs)
    else best) none

/-- Baseline from the spec for the `lambda = 0.0` degeneration: "maximally-
diverse greedy selection ignoring relevance", repeatedly taking the candidate
least similar to the selection so far. -/
def greedyDiverse (env : SelEnv) : ℕ → List String → List String → List String
  | 0, selected, _ => selected
  | fuel + 1, selected, remaining =>
      if remaining.isEmpty then selected
      else
        match diversePick env selected remaining with
        | some (b, _) => greedyDiverse env fuel (selected ++ [b]) (remaining.erase b)
        | none => selected

/-- The number of resolvable items of content type `t` in a list — the
measure used to state type-coverage guarantees. -/
def countType (env : SelEnv) (t : String) (l : List String) : ℕ :=
  (l.filter (fun id => env.emb id && (env.typeOf id = t : Bool))).length

/-! ### Concrete instances used by counterexamples and witnesses -/

/-- Two clicked items (2 and 1 clicks) and one cold item: the engagement data
of the C1 counterexample. -/
def exDataC1 : EngagementData := ⟨[⟨"a", 2⟩, ⟨"b", 1⟩], [], [], [], [], [], [], []⟩

/-- Regression predictions favouring the cold item `"c"`. -/
def exRegrC1 : List (String × ℚ) := [("c", 1), ("a", 0), ("b", 0)]

/-- The three-item catalog of the C1 counterexample. -/
def exItemsC1 : List String := ["a", "b", "c"]

/-- An item whose only engagement is one deep-session visit: the C2
counterexample. -/
def exDataC2 : EngagementData := ⟨[], [], [], [], [], [⟨["x"]⟩], [], []⟩

/-- Frustration-only engagement data for the C7 witness. -/
def exDataC7 : EngagementData :=
  ⟨[], [], [], [], [], [], [⟨"/papers/x", "rage_click", 3⟩, ⟨"/papers/x", "quick_bounce", 2⟩], []⟩

/-- Click-only engagement data for the C8 witness. -/
def exDataC8 : EngagementData := ⟨[⟨"a", 3⟩, ⟨"b", 1⟩], [], [], [], [], [], [], []⟩

/-- A selector oracle with every id resolvable, constant scores and
similarities: ties everywhere. -/
def exEnvTies : SelEnv := ⟨fun _ => true, fun _ => "paper", fun _ => 0, fun _ => 0, fun _ _ => 0⟩

/-- A selector oracle with distinct relevance scores for `"a"`, `"b"`, `"c"`. -/
def exEnvDistinct : SelEnv :=
  ⟨fun _ => true, fun _ => "paper",
   fun s => if s = "a" then 3 else if s = "b" then 2 else 1,
   fun s => if s = "a" then 1 else 0,
   fun _ _ => 0⟩

/-! ### Generic helper lemmas -/

theorem pymax_eq_max (a b : ℚ) : pymax a b = max a b := (max_def a b).symm

theorem pymin_eq_min (a b : ℚ) : pymin a b = min a b := by
  simp only [pymin, min_def]
  rcases le_total a b with h | h
  · rcases eq_or_lt_of_le h with rfl | hlt
    · simp
    · rw [if_pos h, if_neg (not_le.mpr hlt)]
  · rw [if_pos h]
    rcases eq_or_lt_of_le h with rfl | hlt
    · simp
    · rw [if_neg (not_le.mpr hlt)]

theorem foldl_pymin_le (xs : List ℚ) (a : ℚ) :
    xs.foldl pymin a ≤ a ∧ ∀ v ∈ xs, xs.foldl pymin a ≤ v := by
  induction xs generalizing a with
  | nil => simp
  | cons x xs ih =>
    obtain ⟨h1, h2⟩ := ih (pymin a x)
    refine ⟨le_trans h1 ?_, ?_⟩
    · rw [pymin_eq_min]; exact min_le_left a x
    · intro v hv
      rcases List.mem_cons.mp hv with rfl | hv
      · exact le_trans h1 (by rw [pymin_eq_min]; exact min_le_right a v)
      · exact h2 v hv

theorem le_foldl_pymax (xs : List ℚ) (a : ℚ) :
    a ≤ xs.foldl pymax a ∧ ∀ v ∈ xs, v ≤ xs.foldl pymax a := by
  induction xs generalizing a with
  | nil => simp
  | cons x xs ih =>
    obtain ⟨h1, h2⟩ := ih (pymax a x)
    refine ⟨le_trans ?_ h1, ?_⟩
    · rw [pymax_eq_max]; exact le_max_left a x
    · intro v hv
      rcases List.mem_cons.mp hv with rfl | hv
      · exact le_trans (by rw [pymax_eq_max]; exact le_max_right a v) h1
      · exact h2 v hv

theorem listMin_le_of_mem {l : List ℚ} {v : ℚ} (hv : v ∈ l) : listMin l ≤ v := by
  cases l with
  | nil => exact absurd hv (List.not_mem_nil v)
  | cons x xs =>
    rcases List.mem_cons.mp hv with rfl | hv
    · exact (foldl_pymin_le xs v).1
    · exact (foldl_pymin_le xs x).2 v hv

theorem le_listMax_of_mem {l : List ℚ} {v : ℚ} (hv : v ∈ l) : v ≤ listMax l := by
  cases l with
  | nil => exact absurd hv (List.not_mem_nil v)
  | cons x xs =>
    rcases List.mem_cons.mp hv with rfl | hv
    · exact (le_foldl_pymax xs v).1
    · exact (le_foldl_pymax xs x).2 v hv

/-- Every value of a min-max-normalized dictionary lies in `[0, 1]`. -/
theorem normalize_scores_mem_range {scores : List (String × ℚ)} {p : String × ℚ}
    (hp : p ∈ normalize_scores scores) : 0 ≤ p.2 ∧ p.2 ≤ 1 := by
  unfold normalize_scores at hp
  split at hp
  · exact absurd hp (List.not_mem_nil p)
  · split at hp
    · obtain ⟨q, _, rfl⟩ := List.mem_map.mp hp
      norm_num
    · rename_i hne hrange
      obtain ⟨q, hq, rfl⟩ := List.mem_map.mp hp
      have hqv : q.2 ∈ scores.map (·.2) := List.mem_map.mpr ⟨q, hq, rfl⟩
      have h1 : listMin (scores.map (·.2)) ≤ q.2 := listMin_le_of_mem hqv
      have h2 : q.2 ≤ listMax (scores.map (·.2)) := le_listMax_of_mem hqv
      have h3 : listMin (scores.map (·.2)) < listMax (scores.map (·.2)) :=
        lt_of_le_of_ne (le_trans h1 h2) (fun h => hrange h.symm)
      have h4 : (0 : ℚ) < listMax (scores.map (·.2)) - listMin (scores.map (·.2)) := by
        linarith
      constructor
      · exact div_nonneg (by linarith) (le_of_lt h4)
      · rw [div_le_one h4]; linarith

theorem foldl_pymin_mem (xs : List ℚ) (a : ℚ) :
    xs.foldl pymin a = a ∨ xs.foldl pymin a ∈ xs := by
  induction xs generalizing a with
  | nil => exact .inl rfl
  | cons x xs ih =>
    rcases ih (pymin a x) with h | h
    · rw [List.foldl_cons, h]
      unfold pymin
      split
      · exact .inr (List.mem_cons_self x xs)
      · exact .inl rfl
    · exact .inr (List.mem_cons_of_mem x h)

theorem foldl_pymax_mem (xs : List ℚ) (a : ℚ) :
    xs.foldl pymax a = a ∨ xs.foldl pymax a ∈ xs := by
  induction xs generalizing a with
  | nil => exact .inl rfl
  | cons x xs ih =>
    rcases ih (pymax a x) with h | h
    · rw [List.foldl_cons, h]
      unfold pymax
      split
      · exact .inr (List.mem_cons_self x xs)
      · exact .inl rfl
    · exact .inr (List.mem_cons_of_mem x h)

theorem listMin_mem {l : List ℚ} (h : l ≠ []) : listMin l ∈ l := by
  cases l with
  | nil => exact absurd rfl h
  | cons x xs =>
    rcases foldl_pymin_mem xs x with h | h
    · rw [listMin, h]; exact List.mem_cons_self x xs
    · exact List.mem_cons_of_mem x h

theorem listMax_mem {l : List ℚ} (h : l ≠ []) : listMax l ∈ l := by
  cases l with
  | nil => exact absurd rfl h
  | cons x xs =>
    rcases foldl_pymax_mem xs x with h | h
    · rw [listMax, h]; exact List.mem_cons_self x xs
    · exact List.mem_cons_of_mem x h

theorem qsum_nonpos {l : List ℚ} (h : ∀ x ∈ l, x ≤ 0) : l.sum ≤ 0 := by
  induction l with
  | nil => simp
  | cons x xs ih =>
    rw [List.sum_cons]
    have h1 := h x (List.mem_cons_self x xs)
    have h2 := ih (fun y hy => h y (List.mem_cons_of_mem x hy))
    linarith

theorem frustrationRowContrib_nonpos (name : String) (r : FrustrationRow) :
    frustrationRowContrib name r ≤ 0 := by
  unfold frustrationRowContrib
  have hc : (0 : ℚ) ≤ (r.count : ℚ) := Nat.cast_nonneg r.count
  split
  · split
    · split
      · rw [RAGE_CLICK_WEIGHT]; nlinarith
      · split
        · rw [QUICK_BOUNCE_WEIGHT]; nlinarith
        · exact le_refl 0
    · exact le_refl 0
  · exact le_refl 0

theorem frustrationComponent_nonpos (d : EngagementData) (name : String) :
    frustrationComponent d name ≤ 0 := by
  unfold frustrationComponent
  refine qsum_nonpos ?_
  intro x hx
  obtain ⟨r, _, rfl⟩ := List.mem_map.mp hx
  exact frustrationRowContrib_nonpos name r

theorem rawScore_nonneg (d : EngagementData) (name : String) : 0 ≤ rawScore d name := by
  rw [rawScore, pymax_eq_max]
  exact le_max_left 0 (preScore d name)

theorem clickComponent_eq (d : EngagementData) (name : String) :
    clickComponent d name = (clickTotal d name : ℚ) * CLICK_WEIGHT := by
  unfold clickComponent clickTotal
  induction d.clicks with
  | nil => simp
  | cons r rs ih =>
    simp only [List.map_cons, List.sum_cons, ih]
    split <;> push_cast <;> ring

/-- C7: an item whose only engagement signals are frustration events (no
click, impression, dwell, scroll, search-click, deep-session or co-occurrence
contribution) has aggregated raw engagement score exactly `0` after the
clamp, and more generally the clamp keeps every aggregated raw score
non-negative. -/
theorem claim_C7_frustration_only_zero (d : EngagementData) (name other : String)
    (hclick : clickComponent d name = 0)
    (himp : impressionComponent d name = 0)
    (hdwell : dwellComponent d name = 0)
    (hscroll : scrollComponent d name = 0)
    (hsearch : searchComponent d name = 0)
    (hdeep : deepComponent d name = 0)
    (hco : cooccurComponent d name = 0) :
    rawScore d name = 0 ∧ 0 ≤ rawScore d other := by
  refine ⟨?_, rawScore_nonneg d other⟩
  have hpre : preScore d name ≤ 0 := by
    unfold preScore
    rw [hclick, himp, hdwell, hscroll, hsearch, hdeep, hco]
    have := frustrationComponent_nonpos d name
    linarith
  rw [rawScore, pymax_eq_max, max_eq_left hpre]

unseal Rat.add Rat.mul Rat.inv Rat.sub Rat.ofScientific in
/-- Witness for C7: an item hit only by rage clicks and quick bounces scores
exactly `0`. -/
theorem claim_C7_frustration_only_zero_witness :
    (clickComponent exDataC7 "x" = 0 ∧ impressionComponent exDataC7 "x" = 0 ∧
     dwellComponent exDataC7 "x" = 0 ∧ scrollComponent exDataC7 "x" = 0 ∧
     searchComponent exDataC7 "x" = 0 ∧ deepComponent exDataC7 "x" = 0 ∧
     cooccurComponent exDataC7 "x" = 0 ∧ preScore exDataC7 "x" = -8) ∧
    (rawScore exDataC7 "x" = 0 ∧ 0 ≤ rawScore exDataC7 "y") :=
  ⟨by decide,
    claim_C7_frustration_only_zero exDataC7 "x" "y" (by decide) (by decide) (by decide)
      (by decide) (by decide) (by decide) (by decide)⟩

/-- C8: if two items have identical aggregated engagement signals except that
item `a` has strictly more clicks than item `b`, then `a`'s aggregated
observed engagement score is at least `b`'s — the aggregator, including the
non-negativity clamp, is monotone in click count. -/
theorem claim_C8_click_monotonicity (d : EngagementData) (a b : String)
    (hclick : clickTotal d b < clickTotal d a)
    (himp : impressionComponent d a = impressionComponent d b)
    (hdwell : dwellComponent d a = dwellComponent d b)
    (hscroll : scrollComponent d a = scrollComponent d b)
    (hsearch : searchComponent d a = searchComponent d b)
    (hdeep : deepComponent d a = deepComponent d b)
    (hfrust : frustrationComponent d a = frustrationComponent d b)
    (hco : cooccurComponent d a = cooccurComponent d b) :
    rawScore d b ≤ rawScore d a := by
  have hpre : preScore d b ≤ preScore d a := by
    unfold preScore
    rw [clickComponent_eq, clickComponent_eq, himp, hdwell, hscroll, hsearch, hdeep,
      hfrust, hco]
    have hle : (clickTotal d b : ℚ) ≤ (clickTotal d a : ℚ) := by
      exact_mod_cast le_of_lt hclick
    have := mul_le_mul_of_nonneg_right hle (by rw [CLICK_WEIGHT]; norm_num : (0:ℚ) ≤ CLICK_WEIGHT)
    linarith
  rw [rawScore, rawScore, pymax_eq_max, pymax_eq_max]
  exact max_le_max le_rfl hpre

unseal Rat.add Rat.mul Rat.inv Rat.sub Rat.ofScientific in
/-- Witness for C8: 3 clicks versus 1 click, all other signals empty. -/
theorem claim_C8_click_monotonicity_witness :
    (clickTotal exDataC8 "b" < clickTotal exDataC8 "a" ∧
     impressionComponent exDataC8 "a" = impressionComponent exDataC8 "b" ∧
     dwellComponent exDataC8 "a" = dwellComponent exDataC8 "b" ∧
     scrollComponent exDataC8 "a" = scrollComponent exDataC8 "b" ∧
     searchComponent exDataC8 "a" = searchComponent exDataC8 "b" ∧
     deepComponent exDataC8 "a" = deepComponent exDataC8 "b" ∧
     frustrationComponent exDataC8 "a" = frustrationComponent exDataC8 "b" ∧
     cooccurComponent exDataC8 "a" = cooccurComponent exDataC8 "b") ∧
    rawScore exDataC8 "b" ≤ rawScore exDataC8 "a" :=
  ⟨by decide,
    claim_C8_click_monotonicity exDataC8 "a" "b" (by decide) (by decide) (by decide)
      (by decide) (by decide) (by decide) (by decide) (by decide)⟩

unseal Rat.add Rat.mul Rat.inv Rat.sub Rat.ofScientific in
/-- C2, counterexample: item `"x"` has one interaction event (a deep-session
visit), yet the emitted flag is `cold_start = true` — the flag only looks at
clicks, impressions, dwell, scroll and search clicks, so the claim "at least
one interaction event of any signal kind implies `cold_start = false`" fails
at this input. -/
theorem claim_C2_counterexample :
    deepComponent exDataC2 "x" = 3/2 ∧ cold_start_flag exDataC2 "x" := by
  decide

/-- C2, amended: the `cold_start` flag is true exactly when the item has no
click, impression, dwell, scroll or search-click event; deep-session,
frustration and co-occurrence events do not affect the flag. -/
theorem claim_C2_cold_start_flag (d : EngagementData) (name : String) :
    cold_start_flag d name ↔
      ((∀ r ∈ d.clicks, normName r.name ≠ name) ∧
       (∀ r ∈ d.impressions, normName r.name ≠ name) ∧
       (∀ r ∈ d.dwell, normName r.name ≠ name) ∧
       (∀ r ∈ d.scroll, r.path ≠ "" → extract_item_name_from_path r.path ≠ some name) ∧
       (name ≠ "" → ∀ r ∈ d.search_clicks, ∀ c ∈ r.clicks, normName c ≠ name)) := by
  unfold cold_start_flag any_interaction_names click_names impression_names dwell_names
    scroll_names search_click_names
  simp only [List.mem_append, not_or, List.mem_map, not_exists, not_and,
    List.mem_filterMap, List.mem_filter, List.mem_flatMap, decide_eq_true_eq]
  push_neg
  constructor
  · rintro ⟨⟨⟨⟨h1, h2⟩, h3⟩, h4⟩, h5⟩
    exact ⟨h1, h2, h3, fun r hr hp => h4 r ⟨hr, hp⟩,
      fun hn r hr c hc hcn => hn (h5 ⟨r, hr, c, hc, hcn⟩)⟩
  · rintro ⟨h1, h2, h3, h4, h5⟩
    refine ⟨⟨⟨⟨h1, h2⟩, h3⟩, fun r hrp => h4 r hrp.1 hrp.2⟩, ?_⟩
    rintro ⟨r, hr, c, hc, hcn⟩
    by_contra hne
    exact h5 hne r hr c hc hcn

theorem find?_graph (g : String → ℚ) (items : List String) (k : String) (hk : k ∈ items) :
    (items.map (fun n => (n, g n))).find? (fun p => p.1 = k) = some (k, g k) := by
  induction items with
  | nil => exact absurd hk (List.not_mem_nil k)
  | cons n rest ih =>
    rw [List.map_cons]
    by_cases h : n = k
    · subst h
      exact List.find?_cons_of_pos _ (by simp)
    · rw [List.find?_cons_of_neg _ (by simp [h])]
      refine ih ?_
      rcases List.mem_cons.mp hk with rfl | h2
      · exact absurd rfl h
      · exact h2

theorem lookupD_graph (g : String → ℚ) (items : List String) (k : String) (dflt : ℚ) :
    lookupD (items.map fun n => (n, g n)) k dflt = if k ∈ items then g k else dflt := by
  by_cases hk : k ∈ items
  · rw [if_pos hk, lookupD, find?_graph g items k hk]
  · rw [if_neg hk, lookupD]
    have hnone : (items.map fun n => (n, g n)).find? (fun p => p.1 = k) = none := by
      rw [List.find?_eq_none]
      intro p hp
      obtain ⟨n, hn, rfl⟩ := List.mem_map.mp hp
      simp only [decide_eq_true_eq]
      rintro rfl
      exact hk hn
    rw [hnone]

theorem lookupD_normalize_bounds (m : List (String × ℚ)) (k : String) :
    0 ≤ lookupD (normalize_scores m) k 0 ∧ lookupD (normalize_scores m) k 0 ≤ 1 := by
  rw [lookupD]
  cases hf : (normalize_scores m).find? (fun p => p.1 = k) with
  | none => norm_num
  | some p => exact normalize_scores_mem_range (List.mem_of_find?_eq_some hf)

unseal Rat.add Rat.mul Rat.inv Rat.sub Rat.ofScientific in
/-- C1, counterexample: with two clicked items (`a`: 2 clicks, `b`: 1 click)
and one cold-start item `c` predicted well by the regression model, the item
with the least real engagement min-max-normalizes to `0`, so the cold-start
item's final score `0.3` is NOT below the minimum final score of the items
with real engagement — refuting the claimed guarantee even though real
engagement is non-trivial. -/
theorem claim_C1_counterexample :
    "b" ∈ any_interaction_names exDataC1 ∧ "c" ∉ any_interaction_names exDataC1 ∧
    final_score exDataC1 exRegrC1 exItemsC1 "c" = 3/10 ∧
    final_score exDataC1 exRegrC1 exItemsC1 "b" = 0 ∧
    final_score exDataC1 exRegrC1 exItemsC1 "b" <
      final_score exDataC1 exRegrC1 exItemsC1 "c" := by
  decide

/-- C1, amended: the `0.3` discount caps every cold-start item's combined
score before re-normalization at `0.3`, and since the final min-max
re-normalization is order preserving, every item with real engagement whose
normalized engagement score exceeds `0.3` ends strictly above every
cold-start item; the cold-start maximum is not, however, below the score of
every engaged item (the weakest engaged item normalizes to `0`). -/
theorem claim_C1_cold_start_discount (d : EngagementData)
    (regr : List (String × ℚ)) (items : List String) (c e : String)
    (hc : c ∈ items) (he : e ∈ items)
    (hcold : c ∉ any_interaction_names d)
    (heng : e ∈ any_interaction_names d)
    (hgt : 3/10 < lookupD (normalize_scores (raw_scores d)) e 0) :
    hybrid_pre_value d regr c ≤ 3/10 ∧
    final_score d regr items c < final_score d regr items e := by
  have hbc := lookupD_normalize_bounds regr c
  have hvc_le : hybrid_pre_value d regr c ≤ 3/10 := by
    rw [hybrid_pre_value, if_neg hcold]
    nlinarith [hbc.1, hbc.2]
  have hvc_nonneg : 0 ≤ hybrid_pre_value d regr c := by
    rw [hybrid_pre_value, if_neg hcold]
    nlinarith [hbc.1]
  have hve : hybrid_pre_value d regr e = lookupD (normalize_scores (raw_scores d)) e 0 := by
    rw [hybrid_pre_value, if_pos heng]
  have hlt : hybrid_pre_value d regr c < hybrid_pre_value d regr e := by
    rw [hve]; linarith
  refine ⟨hvc_le, ?_⟩
  have hval : (combined_pre d regr items).map (·.2) = items.map (hybrid_pre_value d regr) := by
    rw [combined_pre, List.map_map]
    rfl
  have hvc_mem : hybrid_pre_value d regr c ∈ (combined_pre d regr items).map (·.2) := by
    rw [hval]; exact List.mem_map_of_mem _ hc
  have hve_mem : hybrid_pre_value d regr e ∈ (combined_pre d regr items).map (·.2) := by
    rw [hval]; exact List.mem_map_of_mem _ he
  have hmn_c := listMin_le_of_mem hvc_mem
  have hmx_e := le_listMax_of_mem hve_mem
  have hmn_e := listMin_le_of_mem hve_mem
  have hmx_c := le_listMax_of_mem hvc_mem
  have hrange : listMax ((combined_pre d regr items).map (·.2)) ≠
      listMin ((combined_pre d regr items).map (·.2)) := by
    intro hEq
    rw [hEq] at hmx_e
    linarith
  have hm_ne : (combined_pre d regr items).isEmpty = false := by
    rw [combined_pre]
    cases items with
    | nil => exact absurd hc (List.not_mem_nil c)
    | cons x xs => rfl
  have hnorm : normalize_scores (combined_pre d regr items) =
      items.map (fun n => (n,
        (hybrid_pre_value d regr n - listMin ((combined_pre d regr items).map (·.2))) /
        (listMax ((combined_pre d regr items).map (·.2)) -
         listMin ((combined_pre d regr items).map (·.2))))) := by
    rw [normalize_scores, if_neg (by rw [hm_ne]; exact Bool.false_ne_true), if_neg hrange]
    rw [combined_pre, List.map_map]
    rfl
  have hpos : 0 < listMax ((combined_pre d regr items).map (·.2)) -
      listMin ((combined_pre d regr items).map (·.2)) := by
    have : listMin ((combined_pre d regr items).map (·.2)) <
        listMax ((combined_pre d regr items).map (·.2)) := by
      rcases lt_or_eq_of_le (le_trans hmn_c (le_trans (le_of_lt hlt) hmx_e)) with h | h
      · exact h
      · exact absurd h.symm hrange
    linarith
  have hfc : final_score d regr items c =
      (hybrid_pre_value d regr c - listMin ((combined_pre d regr items).map (·.2))) /
      (listMax ((combined_pre d regr items).map (·.2)) -
       listMin ((combined_pre d regr items).map (·.2))) := by
    rw [final_score, combined_scores, hnorm, lookupD_graph, if_pos hc]
  have hfe : final_score d regr items e =
      (hybrid_pre_value d regr e - listMin ((combined_pre d regr items).map (·.2))) /
      (listMax ((combined_pre d regr items).map (·.2)) -
       listMin ((combined_pre d regr items).map (·.2))) := by
    rw [final_score, combined_scores, hnorm, lookupD_graph, if_pos he]
  rw [hfc, hfe, div_lt_div_iff₀ hpos hpos]
  nlinarith [hlt, hpos]

unseal Rat.add Rat.mul Rat.inv Rat.sub Rat.ofScientific in
/-- Witness for the amended C1 at the concrete corpus of the counterexample:
the top engaged item `a` (normalized engagement `1 > 0.3`) beats the
cold-start item `c`. -/
theorem claim_C1_cold_start_discount_witness :
    ("c" ∈ exItemsC1 ∧ "a" ∈ exItemsC1 ∧ "c" ∉ any_interaction_names exDataC1 ∧
     "a" ∈ any_interaction_names exDataC1 ∧
     3/10 < lookupD (normalize_scores (raw_scores exDataC1)) "a" 0) ∧
    (hybrid_pre_value exDataC1 exRegrC1 "c" ≤ 3/10 ∧
     final_score exDataC1 exRegrC1 exItemsC1 "c" <
       final_score exDataC1 exRegrC1 exItemsC1 "a") :=
  ⟨by decide,
   claim_C1_cold_start_discount exDataC1 exRegrC1 exItemsC1 "c" "a" (by decide)
     (by decide) (by decide) (by decide) (by decide)⟩

/-- C3: for every non-empty score mapping, `normalize_scores` yields a final
score in `[0,1]` for every item, and in the degenerate case where all input
scores are equal (zero range) every item is mapped to exactly `0.5` rather
than dividing by zero. -/
theorem claim_C3_normalization (scores : List (String × ℚ)) (hne : scores ≠ []) :
    (∀ p ∈ normalize_scores scores, 0 ≤ p.2 ∧ p.2 ≤ 1) ∧
    ((∀ p ∈ scores, ∀ q ∈ scores, p.2 = q.2) →
      ∀ p ∈ normalize_scores scores, p.2 = 1/2) := by
  constructor
  · intro p hp
    exact normalize_scores_mem_range hp
  · intro hconst p hp
    have hvne : scores.map (·.2) ≠ [] := by
      simpa using hne
    have hmaxmin : listMax (scores.map (·.2)) = listMin (scores.map (·.2)) := by
      obtain ⟨q1, hq1, he1⟩ := List.mem_map.mp (listMax_mem hvne)
      obtain ⟨q2, hq2, he2⟩ := List.mem_map.mp (listMin_mem hvne)
      rw [← he1, ← he2]
      exact hconst q1 hq1 q2 hq2
    unfold normalize_scores at hp
    rw [if_neg (by simpa using hne), if_pos hmaxmin] at hp
    obtain ⟨q, _, rfl⟩ := List.mem_map.mp hp
    rfl

/-- Witness for C3 at the concrete constant mapping `{a: 2, b: 2}`. -/
theorem claim_C3_normalization_witness :
    ([("a", (2:ℚ)), ("b", 2)] ≠ ([] : List (String × ℚ))) ∧
    ((∀ p ∈ normalize_scores [("a", (2:ℚ)), ("b", 2)], 0 ≤ p.2 ∧ p.2 ≤ 1) ∧
     ((∀ p ∈ [("a", (2:ℚ)), ("b", 2)], ∀ q ∈ [("a", (2:ℚ)), ("b", 2)], p.2 = q.2) →
       ∀ p ∈ normalize_scores [("a", (2:ℚ)), ("b", 2)], p.2 = 1/2)) :=
  ⟨by decide, claim_C3_normalization [("a", (2:ℚ)), ("b", 2)] (by decide)⟩

theorem heroFold_isSome (env : SelEnv) (ids : List String)
    (h : ∃ id ∈ ids, env.emb id = true) : (heroFold env ids).isSome := by
  rw [heroFold]
  obtain ⟨x, hx, hxe⟩ := h
  have step_keeps : ∀ (l : List String) (acc : String × ℚ),
      (l.foldl (fun best id =>
        if env.emb id then
          match best with
          | none => some (id, env.heroScore id)
          | some (b, bs) =>
              if bs < env.heroScore id then some (id, env.heroScore id) else some (b, bs)
        else best) (some acc)).isSome := by
    intro l
    induction l with
    | nil => intro acc; rfl
    | cons y ys ih =>
      intro acc
      rw [List.foldl_cons]
      by_cases hy : env.emb y
      · rw [if_pos hy]
        cases hlt : decide (acc.2 < env.heroScore y) with
        | true => simpa [of_decide_eq_true hlt] using ih (y, env.heroScore y)
        | false =>
            have := of_decide_eq_false hlt
            simpa [this] using ih acc
      · rw [if_neg hy]
        exact ih acc
  induction ids with
  | nil => exact absurd hx (List.not_mem_nil x)
  | cons y ys ih =>
    rw [List.foldl_cons]
    rcases List.mem_cons.mp hx with rfl | hx2
    · rw [if_pos hxe]
      exact step_keeps ys (x, env.heroScore x)
    · by_cases hy : env.emb y
      · rw [if_pos hy]
        exact step_keeps ys (y, env.heroScore y)
      · rw [if_neg hy]
        exact ih hx2

theorem head?_hero_branch (h : String) (l : List String) (m : ℕ) (hm : 1 ≤ m) :
    (if h ∈ l then h :: l.erase h else (h :: l).take m).head? = some h := by
  split
  · rfl
  · cases m with
    | zero => omega
    | succ m => rfl

/-- C4: whenever the cluster has at least one member with an embedding (so a
hero is selected), the hero is included in the ordered carousel list and
stands at position 0. -/
theorem claim_C4_hero_first (env : SelEnv) (ids : List String) (max_items : ℕ)
    (hres : ∃ id ∈ ids, env.emb id = true) (hmax : 1 ≤ max_items) :
    (select_diverse_items env ids max_items).hero.isSome ∧
    (select_diverse_items env ids max_items).ordered_items.head? =
      (select_diverse_items env ids max_items).hero := by
  obtain ⟨x, hx, hxe⟩ := hres
  have hids_ne : ids.isEmpty = false := by
    cases ids with
    | nil => exact absurd hx (List.not_mem_nil x)
    | cons y ys => rfl
  have hres_ne : (ids.filter (fun id => env.emb id)).isEmpty = false := by
    have hmem : x ∈ ids.filter (fun id => env.emb id) := by
      rw [List.mem_filter]; exact ⟨hx, hxe⟩
    cases hfe : ids.filter (fun id => env.emb id) with
    | nil => rw [hfe] at hmem; exact absurd hmem (List.not_mem_nil x)
    | cons y ys => rfl
  have hsome : (heroFold env ids).isSome := heroFold_isSome env ids ⟨x, hx, hxe⟩
  obtain ⟨p, hp⟩ := Option.isSome_iff_exists.mp hsome
  have hhero : select_hero env ids = some p.1 := by
    rw [select_hero, hp]
    rfl
  rw [select_diverse_items, if_neg (by rw [hids_ne]; exact Bool.false_ne_true),
    if_neg (by rw [hres_ne]; exact Bool.false_ne_true)]
  simp only [hhero]
  exact ⟨rfl, head?_hero_branch p.1 _ max_items hmax⟩

unseal Rat.add Rat.mul Rat.inv Rat.sub Rat.ofScientific in
/-- Witness for C4 at a concrete three-item cluster. -/
theorem claim_C4_hero_first_witness :
    ((∃ id ∈ ["a", "b", "c"], exEnvDistinct.emb id = true) ∧ 1 ≤ 15) ∧
    ((select_diverse_items exEnvDistinct ["a", "b", "c"] 15).hero.isSome ∧
     (select_diverse_items exEnvDistinct ["a", "b", "c"] 15).ordered_items.head? =
       (select_diverse_items exEnvDistinct ["a", "b", "c"] 15).hero) :=
  ⟨⟨by decide, by decide⟩,
   claim_C4_hero_first exEnvDistinct ["a", "b", "c"] 15 (by decide) (by decide)⟩

theorem pickBest_keep (env : SelEnv) (lam : ℚ) (sel : List String) (l : List String)
    (a : String) (sa : ℚ) (h : ∀ x ∈ l, mmrScore env lam sel x ≤ sa) :
    l.foldl (fun best id =>
      if env.emb id then
        match best with
        | none => some (id, mmrScore env lam sel id)
        | some (b, bs) =>
            if bs < mmrScore env lam sel id then some (id, mmrScore env lam sel id)
            else some (b, bs)
      else best) (some (a, sa)) = some (a, sa) := by
  induction l with
  | nil => rfl
  | cons y ys ih =>
    rw [List.foldl_cons]
    by_cases hy : env.emb y
    · rw [if_pos hy]
      have hle : ¬ sa < mmrScore env lam sel y :=
        not_lt.mpr (h y (List.mem_cons_self y ys))
      simp only [if_neg hle]
      exact ih (fun x hx => h x (List.mem_cons_of_mem y hx))
    · rw [if_neg hy]
      exact ih (fun x hx => h x (List.mem_cons_of_mem y hx))

theorem pickBest_first (env : SelEnv) (lam : ℚ) (sel : List String) (a : String)
    (rest : List String) (hemb_a : env.emb a = true)
    (hmax : ∀ x ∈ rest, mmrScore env lam sel x ≤ mmrScore env lam sel a) :
    pickBest env lam sel (a :: rest) = some (a, mmrScore env lam sel a) := by
  rw [pickBest, List.foldl_cons, if_pos hemb_a]
  exact pickBest_keep env lam sel rest a (mmrScore env lam sel a) hmax

theorem mmr_go_extends (env : SelEnv) (lam : ℚ) (fuel : ℕ) (sel rem : List String) :
    ∃ tl, mmr_go env lam fuel sel rem = sel ++ tl := by
  induction fuel generalizing sel rem with
  | zero => exact ⟨[], by rw [mmr_go, List.append_nil]⟩
  | succ fuel ih =>
    rw [mmr_go]
    split
    · exact ⟨[], (List.append_nil sel).symm⟩
    · cases hpb : pickBest env lam sel rem with
      | none => exact ⟨[], (List.append_nil sel).symm⟩
      | some p =>
        obtain ⟨b, bs⟩ := p
        obtain ⟨tl, htl⟩ := ih (sel ++ [b]) (rem.erase b)
        refine ⟨b :: tl, ?_⟩
        show mmr_go env lam fuel (sel ++ [b]) (rem.erase b) = sel ++ b :: tl
        rw [htl, List.append_assoc]
        rfl

unseal Rat.add Rat.mul Rat.inv Rat.sub Rat.ofScientific in
/-- C9, counterexample: with two candidates tied in relevance (and `lambda =
1`, one slot), the MMR selection from the candidate set `{a, b}` returns `a`
under one iteration order of the remaining-candidates set and `b` under the
other — the tie is not broken by a stable secondary key such as the item id,
so the carousel ordering is not reproducible across runs (Python `set`
iteration order is not specified). -/
theorem claim_C9_counterexample :
    List.Perm ["a", "b"] ["b", "a"] ∧
    exEnvTies.rel "a" = exEnvTies.rel "b" ∧
    mmr_select exEnvTies ["a", "b"] 1 1 = ["a"] ∧
    mmr_select exEnvTies ["b", "a"] 1 1 = ["b"] := by
  decide

/-- C9, amended: ties in MMR score are broken by the iteration order of the
remaining-candidates set — the earliest enumerated candidate attaining the
maximal score wins the first slot — and not by any property of the item
itself; reproducibility therefore holds only for a fixed enumeration order. -/
theorem claim_C9_tie_enumeration_order (env : SelEnv) (lam : ℚ) (k : ℕ)
    (a : String) (rest : List String) (hemb_a : env.emb a = true)
    (hmax : ∀ x ∈ rest, mmrScore env lam [] x ≤ mmrScore env lam [] a)
    (hk : 0 < k) (hlen : k < (a :: rest).length) :
    ∃ tl, mmr_select env (a :: rest) k lam = a :: tl := by
  rw [mmr_select, if_neg (by omega)]
  cases k with
  | zero => omega
  | succ k' =>
    rw [mmr_go]
    rw [if_neg (by intro h; exact absurd h (by simp))]
    rw [pickBest_first env lam [] a rest hemb_a hmax]
    show ∃ tl, mmr_go env lam k' ([] ++ [a]) ((a :: rest).erase a) = a :: tl
    rw [List.erase_cons_head, List.nil_append]
    obtain ⟨tl, htl⟩ := mmr_go_extends env lam k' [a] rest
    exact ⟨tl, by rw [htl]; rfl⟩

unseal Rat.add Rat.mul Rat.inv Rat.sub Rat.ofScientific in
/-- Witness for the amended C9: with candidates `["a", "b"]` tied everywhere,
the first enumerated candidate `a` wins the slot. -/
theorem claim_C9_tie_enumeration_order_witness :
    (exEnvTies.emb "a" = true ∧
     (∀ x ∈ ["b"], mmrScore exEnvTies 1 [] x ≤ mmrScore exEnvTies 1 [] "a") ∧
     0 < 1 ∧ 1 < (["a", "b"] : List String).length) ∧
    (∃ tl, mmr_select exEnvTies ["a", "b"] 1 1 = "a" :: tl) :=
  ⟨⟨by decide, by decide, by decide, by decide⟩,
   claim_C9_tie_enumeration_order exEnvTies 1 1 "a" ["b"] (by decide) (by decide)
     (by decide) (by decide)⟩

theorem appendNew_spec (cov xs : List String) :
    ∃ l, appendNew cov xs = cov ++ l ∧ l.length ≤ xs.length ∧
      (∀ y ∈ l, y ∈ xs ∧ y ∉ cov) ∧ l.Nodup := by
  induction xs generalizing cov with
  | nil => exact ⟨[], by rw [List.append_nil]; rfl, by simp, by simp, List.nodup_nil⟩
  | cons x xs ih =>
    rw [appendNew, List.foldl_cons]
    by_cases hx : x ∈ cov
    · rw [if_pos hx]
      obtain ⟨l, h1, h2, h3, h4⟩ := ih cov
      rw [appendNew] at h1
      exact ⟨l, h1, Nat.le_succ_of_le h2,
        fun y hy => ⟨List.mem_cons_of_mem x (h3 y hy).1, (h3 y hy).2⟩, h4⟩
    · rw [if_neg hx]
      obtain ⟨l, h1, h2, h3, h4⟩ := ih (cov ++ [x])
      rw [appendNew] at h1
      refine ⟨x :: l, ?_, by simpa using h2, ?_, ?_⟩
      · rw [h1, List.append_assoc]
        rfl
      · intro y hy
        rcases List.mem_cons.mp hy with rfl | hy
        · exact ⟨List.mem_cons_self y xs, hx⟩
        · refine ⟨List.mem_cons_of_mem x (h3 y hy).1, ?_⟩
          intro hyc
          exact (h3 y hy).2 (List.mem_append_left [x] hyc)
      · rw [List.nodup_cons]
        refine ⟨?_, h4⟩
        intro hxl
        exact (h3 x hxl).2 (List.mem_append_right cov (List.mem_singleton_self x))

theorem appendNew_nodup {cov : List String} (xs : List String) (h : cov.Nodup) :
    (appendNew cov xs).Nodup := by
  obtain ⟨l, h1, _, h3, h4⟩ := appendNew_spec cov xs
  rw [h1, List.nodup_append]
  exact ⟨h, h4, fun a ha hal => (h3 a hal).2 ha⟩

theorem appendNew_length (cov xs : List String) :
    (appendNew cov xs).length ≤ cov.length + xs.length := by
  obtain ⟨l, h1, h2, _, _⟩ := appendNew_spec cov xs
  rw [h1, List.length_append]
  omega

theorem mem_appendNew_left {cov : List String} {y : String} (xs : List String)
    (h : y ∈ cov) : y ∈ appendNew cov xs := by
  obtain ⟨l, h1, _, _, _⟩ := appendNew_spec cov xs
  rw [h1]
  exact List.mem_append_left l h

theorem mem_appendNew_right {xs : List String} {y : String} (cov : List String)
    (h : y ∈ xs) : y ∈ appendNew cov xs := by
  induction xs generalizing cov with
  | nil => exact absurd h (List.not_mem_nil y)
  | cons x xs ih =>
    rw [appendNew, List.foldl_cons]
    rcases List.mem_cons.mp h with rfl | h2
    · by_cases hx : y ∈ cov
      · rw [if_pos hx, ← appendNew]
        exact mem_appendNew_left xs hx
      · rw [if_neg hx, ← appendNew]
        exact mem_appendNew_left xs (List.mem_append_right cov (List.mem_singleton_self y))
    · by_cases hx : x ∈ cov
      · rw [if_pos hx, ← appendNew]
        exact ih cov h2
      · rw [if_neg hx, ← appendNew]
        exact ih (cov ++ [x]) h2

theorem mem_appendNew_or {cov xs : List String} {y : String}
    (h : y ∈ appendNew cov xs) : y ∈ cov ∨ y ∈ xs := by
  obtain ⟨l, h1, _, h3, _⟩ := appendNew_spec cov xs
  rw [h1] at h
  rcases List.mem_append.mp h with h | h
  · exact .inl h
  · exact .inr (h3 y h).1

theorem coverageStep_nodup (env : SelEnv) (ids : List String) {cov : List String}
    (t : String) (h : cov.Nodup) : (coverageStep env ids cov t).Nodup := by
  rw [coverageStep]
  split
  · exact h
  · exact appendNew_nodup _ h

theorem coverageStep_mem (env : SelEnv) (ids : List String) {cov : List String}
    {t : String} {y : String} (h : y ∈ coverageStep env ids cov t) :
    y ∈ cov ∨ y ∈ ids := by
  rw [coverageStep] at h
  split at h
  · exact .inl h
  · rcases mem_appendNew_or h with h | h
    · exact .inl h
    · right
      have h2 : y ∈ (ids.filter (fun id => env.emb id && (env.typeOf id = t : Bool))).insertionSort (relDesc env) :=
        List.mem_of_mem_take h
      have h3 := (List.perm_insertionSort (relDesc env) _).mem_iff.mp h2
      exact (List.mem_filter.mp h3).1

theorem coverageStep_length (env : SelEnv) (ids : List String) (cov : List String)
    (t : String) :
    (coverageStep env ids cov t).length ≤ cov.length + MIN_PER_TYPE t := by
  rw [coverageStep]
  split
  · omega
  · refine le_trans (appendNew_length _ _) ?_
    have := List.length_take_le (MIN_PER_TYPE t)
      ((ids.filter (fun id => env.emb id && (env.typeOf id = t : Bool))).insertionSort (relDesc env))
    omega

theorem coverage_foldl_nodup (env : SelEnv) (ids : List String) (ts : List String)
    (cov : List String) (h : cov.Nodup) :
    (ts.foldl (coverageStep env ids) cov).Nodup := by
  induction ts generalizing cov with
  | nil => exact h
  | cons t ts ih =>
    rw [List.foldl_cons]
    exact ih _ (coverageStep_nodup env ids t h)

theorem coverage_foldl_mem (env : SelEnv) (ids : List String) (ts : List String)
    (cov : List String) {y : String}
    (h : y ∈ ts.foldl (coverageStep env ids) cov) : y ∈ cov ∨ y ∈ ids := by
  induction ts generalizing cov with
  | nil => exact .inl h
  | cons t ts ih =>
    rw [List.foldl_cons] at h
    rcases ih _ h with h | h
    · exact coverageStep_mem env ids h
    · exact .inr h

theorem coverage_foldl_length (env : SelEnv) (ids : List String) (ts : List String)
    (cov : List String) :
    (ts.foldl (coverageStep env ids) cov).length ≤
      cov.length + (ts.map MIN_PER_TYPE).sum := by
  induction ts generalizing cov with
  | nil => simp
  | cons t ts ih =>
    rw [List.foldl_cons, List.map_cons, List.sum_cons]
    refine le_trans (ih _) ?_
    have := coverageStep_length env ids cov t
    omega

theorem ensure_type_coverage_nodup (env : SelEnv) (ids : List String) :
    (ensure_type_coverage env ids).Nodup :=
  coverage_foldl_nodup env ids type_order [] List.nodup_nil

theorem ensure_type_coverage_mem (env : SelEnv) (ids : List String) {y : String}
    (h : y ∈ ensure_type_coverage env ids) : y ∈ ids := by
  rcases coverage_foldl_mem env ids type_order [] h with h | h
  · exact absurd h (List.not_mem_nil y)
  · exact h

theorem ensure_type_coverage_length (env : SelEnv) (ids : List String) :
    (ensure_type_coverage env ids).length ≤ 6 := by
  refine le_trans (coverage_foldl_length env ids type_order []) ?_
  decide

theorem pickBest_mem {env : SelEnv} {lam : ℚ} {sel rem : List String}
    {p : String × ℚ} (h : pickBest env lam sel rem = some p) : p.1 ∈ rem := by
  rw [pickBest] at h
  suffices H : ∀ (l : List String) (acc : Option (String × ℚ)),
      (∀ q, acc = some q → q.1 ∈ rem) → (∀ x ∈ l, x ∈ rem) →
      ∀ q, l.foldl (fun best id =>
        if env.emb id then
          match best with
          | none => some (id, mmrScore env lam sel id)
          | some (b, bs) =>
              if bs < mmrScore env lam sel id then some (id, mmrScore env lam sel id)
              else some (b, bs)
        else best) acc = some q → q.1 ∈ rem by
    exact H rem none (fun q hq => absurd hq (by simp)) (fun x hx => hx) p h
  intro l
  induction l with
  | nil => intro acc hacc _ q hq; exact hacc q hq
  | cons y ys ih =>
    intro acc hacc hsub q hq
    rw [List.foldl_cons] at hq
    refine ih _ ?_ (fun x hx => hsub x (List.mem_cons_of_mem y hx)) q hq
    intro r hr
    by_cases hy : env.emb y
    · rw [if_pos hy] at hr
      cases acc with
      | none =>
        simp only [Option.some.injEq] at hr
        rw [← hr]
        exact hsub y (List.mem_cons_self y ys)
      | some b =>
        obtain ⟨b1, b2⟩ := b
        by_cases hlt : b2 < mmrScore env lam sel y
        · simp only [if_pos hlt, Option.some.injEq] at hr
          rw [← hr]
          exact hsub y (List.mem_cons_self y ys)
        · simp only [if_neg hlt, Option.some.injEq] at hr
          rw [← hr]
          exact hacc (b1, b2) rfl
    · rw [if_neg hy] at hr
      exact hacc r hr

theorem mmr_go_mem {env : SelEnv} {lam : ℚ} {fuel : ℕ} {sel rem : List String}
    {y : String} (h : y ∈ mmr_go env lam fuel sel rem) : y ∈ sel ∨ y ∈ rem := by
  induction fuel generalizing sel rem with
  | zero => exact .inl h
  | succ fuel ih =>
    rw [mmr_go] at h
    split at h
    · exact .inl h
    · cases hpb : pickBest env lam sel rem with
      | none => rw [hpb] at h; exact .inl h
      | some p =>
        obtain ⟨b, bs⟩ := p
        rw [hpb] at h
        rcases ih h with h2 | h2
        · rcases List.mem_append.mp h2 with h3 | h3
          · exact .inl h3
          · right
            rw [List.mem_singleton] at h3
            rw [h3]
            exact pickBest_mem hpb
        · exact .inr (List.mem_of_mem_erase h2)

theorem mmr_go_nodup {env : SelEnv} {lam : ℚ} (fuel : ℕ) (sel rem : List String)
    (hsel : sel.Nodup) (hrem : rem.Nodup) (hdisj : ∀ x ∈ sel, x ∉ rem) :
    (mmr_go env lam fuel sel rem).Nodup := by
  induction fuel generalizing sel rem with
  | zero => exact hsel
  | succ fuel ih =>
    rw [mmr_go]
    split
    · exact hsel
    · cases hpb : pickBest env lam sel rem with
      | none => exact hsel
      | some p =>
        obtain ⟨b, bs⟩ := p
        have hbrem : b ∈ rem := pickBest_mem hpb
        refine ih (sel ++ [b]) (rem.erase b) ?_ (hrem.erase b) ?_
        · rw [List.nodup_append]
          refine ⟨hsel, List.nodup_singleton b, ?_⟩
          intro a ha hab
          rw [List.mem_singleton] at hab
          rw [hab] at ha
          exact hdisj b ha hbrem
        · intro x hx
          rcases List.mem_append.mp hx with h2 | h2
          · intro hxe
            exact hdisj x h2 (List.mem_of_mem_erase hxe)
          · rw [List.mem_singleton] at h2
            rw [h2]
            intro hbe
            exact ((hrem.mem_erase_iff).mp hbe).1 rfl

theorem mmr_go_length {env : SelEnv} {lam : ℚ} (fuel : ℕ) (sel rem : List String) :
    (mmr_go env lam fuel sel rem).length ≤ sel.length + fuel := by
  induction fuel generalizing sel rem with
  | zero =>
    rw [mmr_go]
    omega
  | succ fuel ih =>
    rw [mmr_go]
    split
    · omega
    · cases hpb : pickBest env lam sel rem with
      | none =>
        show sel.length ≤ sel.length + (fuel + 1)
        omega
      | some p =>
        obtain ⟨b, bs⟩ := p
        have h2 := ih (sel ++ [b]) (rem.erase b)
        rw [List.length_append] at h2
        show (mmr_go env lam fuel (sel ++ [b]) (rem.erase b)).length ≤ sel.length + (fuel + 1)
        simp only [List.length_singleton] at h2
        omega

theorem mmr_select_mem {env : SelEnv} {cands : List String} {k : ℕ} {lam : ℚ}
    {y : String} (h : y ∈ mmr_select env cands k lam) : y ∈ cands := by
  rw [mmr_select] at h
  split at h
  · exact h
  · rcases mmr_go_mem h with h | h
    · exact absurd h (List.not_mem_nil y)
    · exact h

theorem mmr_select_nodup {env : SelEnv} {cands : List String} (k : ℕ) (lam : ℚ)
    (hc : cands.Nodup) : (mmr_select env cands k lam).Nodup := by
  rw [mmr_select]
  split
  · exact hc
  · exact mmr_go_nodup k [] cands List.nodup_nil hc (by simp)

theorem mmr_select_length {env : SelEnv} (cands : List String) (k : ℕ) (lam : ℚ) :
    (mmr_select env cands k lam).length ≤ k := by
  rw [mmr_select]
  split
  · omega
  · have := @mmr_go_length env lam k [] cands
    simpa using this

/-- C10: for every duplicate-free cluster input, the ordered carousel list
returned by `select_diverse_items` (with the default `max_items = 15`)
contains no duplicate item ids and has length at most 15, across all
branches: the unresolvable-cluster fallback, type coverage, MMR fill, and
hero repositioning/insertion with truncation. -/
theorem claim_C10_nodup_bounded (env : SelEnv) (ids : List String) (hn : ids.Nodup) :
    (select_diverse_items env ids 15).ordered_items.Nodup ∧
    (select_diverse_items env ids 15).ordered_items.length ≤ 15 := by
  rw [select_diverse_items]
  split
  · exact ⟨List.nodup_nil, by simp⟩
  · dsimp only
    split
    · exact ⟨hn.sublist (List.take_sublist 15 ids), by simp⟩
    · set tc := ensure_type_coverage env ids with htc
      set rem := List.filter (fun id => decide (id ∉ tc)) ids with hrem
      set ms := if tc.length < 15 ∧ ¬rem.isEmpty = true then
          mmr_select env rem (15 - tc.length) (3 / 5) else [] with hms
      have htc_nodup : tc.Nodup := ensure_type_coverage_nodup env ids
      have htc_len : tc.length ≤ 6 := ensure_type_coverage_length env ids
      have hrem_nodup : rem.Nodup := hn.filter _
      have hms_nodup : ms.Nodup := by
        rw [hms]
        split
        · exact mmr_select_nodup _ _ hrem_nodup
        · exact List.nodup_nil
      have hms_mem : ∀ y ∈ ms, y ∈ rem := by
        rw [hms]
        split
        · intro y hy
          exact mmr_select_mem hy
        · intro y hy
          exact absurd hy (List.not_mem_nil y)
      have hms_len : tc.length + ms.length ≤ 15 := by
        rw [hms]
        split
        · rename_i hcond
          have := @mmr_select_length env rem (15 - tc.length) (3/5)
          omega
        · simp only [List.length_nil]
          omega
      have hord_nodup : (tc ++ ms).Nodup := by
        rw [List.nodup_append]
        refine ⟨htc_nodup, hms_nodup, ?_⟩
        intro a ha ham
        have h2 := hms_mem a ham
        rw [hrem] at h2
        exact (of_decide_eq_true (List.mem_filter.mp h2).2) ha
      have hord_len : (tc ++ ms).length ≤ 15 := by
        rw [List.length_append]
        omega
      cases hh : select_hero env ids with
      | none => exact ⟨hord_nodup, hord_len⟩
      | some h =>
        show (if h ∈ tc ++ ms then h :: (tc ++ ms).erase h
              else (h :: (tc ++ ms)).take 15).Nodup ∧
             (if h ∈ tc ++ ms then h :: (tc ++ ms).erase h
              else (h :: (tc ++ ms)).take 15).length ≤ 15
        split
        · rename_i hmem
          have hperm : List.Perm (tc ++ ms) (h :: (tc ++ ms).erase h) :=
            List.perm_cons_erase hmem
          exact ⟨hperm.nodup_iff.mp hord_nodup, hperm.length_eq ▸ hord_len⟩
        · rename_i hmem
          constructor
          · refine List.Nodup.sublist (List.take_sublist 15 _) ?_
            rw [List.nodup_cons]
            exact ⟨hmem, hord_nodup⟩
          · simp


unseal Rat.add Rat.mul Rat.inv Rat.sub Rat.ofScientific in
/-- Witness for C10 at a concrete three-item cluster. -/
theorem claim_C10_nodup_bounded_witness :
    (["a", "b", "c"] : List String).Nodup ∧
    ((select_diverse_items exEnvDistinct ["a", "b", "c"] 15).ordered_items.Nodup ∧
     (select_diverse_items exEnvDistinct ["a", "b", "c"] 15).ordered_items.length ≤ 15) :=
  ⟨by decide, claim_C10_nodup_bounded exEnvDistinct ["a", "b", "c"] (by decide)⟩

theorem take_append_add {α : Type} (l₁ l₂ : List α) (k : ℕ) :
    (l₁ ++ l₂).take (l₁.length + k) = l₁ ++ l₂.take k := by
  induction l₁ with
  | nil => simp
  | cons x xs ih =>
    rw [List.cons_append, List.length_cons,
      show xs.length + 1 + k = (xs.length + k) + 1 by omega,
      List.take_succ_cons, ih]
    rfl

theorem take_append_of_length_le {α : Type} {l₁ l₂ : List α} {n : ℕ}
    (h : l₁.length ≤ n) : (l₁ ++ l₂).take n = l₁ ++ l₂.take (n - l₁.length) := by
  obtain ⟨k, rfl⟩ : ∃ k, n = l₁.length + k := ⟨n - l₁.length, by omega⟩
  rw [take_append_add, show l₁.length + k - l₁.length = k by omega]

theorem countType_append (env : SelEnv) (t : String) (l₁ l₂ : List String) :
    countType env t (l₁ ++ l₂) = countType env t l₁ + countType env t l₂ := by
  rw [countType, countType, countType, List.filter_append, List.length_append]

theorem countType_le_cons (env : SelEnv) (t : String) (y : String) (l : List String) :
    countType env t l ≤ countType env t (y :: l) := by
  rw [countType, countType, List.filter_cons]
  split
  · rw [List.length_cons]
    omega
  · omega

theorem countType_perm (env : SelEnv) (t : String) {l₁ l₂ : List String}
    (h : List.Perm l₁ l₂) : countType env t l₁ = countType env t l₂ :=
  (h.filter _).length_eq

theorem MIN_pos_mem_type_order {t : String} (h : 0 < MIN_PER_TYPE t) :
    t ∈ type_order := by
  rw [MIN_PER_TYPE] at h
  split_ifs at h with h1 h2 h3 h4 h5
  · subst h1; decide
  · subst h2; decide
  · subst h3; decide
  · subst h4; decide
  · subst h5; decide
  · omega

theorem coverageStep_countType_mono (env : SelEnv) (ids cov : List String)
    (t' t : String) :
    countType env t cov ≤ countType env t (coverageStep env ids cov t') := by
  rw [coverageStep]
  split
  · exact le_refl _
  · obtain ⟨l, h1, _, _, _⟩ := appendNew_spec cov _
    rw [h1, countType_append]
    omega

theorem coverage_foldl_countType_mono (env : SelEnv) (ids : List String)
    (ts : List String) (cov : List String) (t : String) :
    countType env t cov ≤ countType env t (ts.foldl (coverageStep env ids) cov) := by
  induction ts generalizing cov with
  | nil => exact le_refl _
  | cons t' ts ih =>
    rw [List.foldl_cons]
    exact le_trans (coverageStep_countType_mono env ids cov t' t) (ih _)

theorem coverageStep_countType_target (env : SelEnv) (ids cov : List String)
    (t : String) (hn : ids.Nodup) (hpos : 0 < MIN_PER_TYPE t)
    (hcount : MIN_PER_TYPE t ≤ countType env t ids) :
    MIN_PER_TYPE t ≤ countType env t (coverageStep env ids cov t) := by
  rw [coverageStep]
  have hlen_items : MIN_PER_TYPE t ≤
      (ids.filter (fun id => env.emb id && (env.typeOf id = t : Bool))).length := hcount
  have hcond : ¬((ids.filter (fun id => env.emb id && (env.typeOf id = t : Bool))).isEmpty ||
      MIN_PER_TYPE t == 0) = true := by
    rw [Bool.or_eq_true, not_or]
    constructor
    · intro hae
      rw [List.isEmpty_iff] at hae
      rw [hae] at hlen_items
      simp at hlen_items
      omega
    · intro hbe
      rw [beq_iff_eq] at hbe
      omega
  rw [if_neg hcond]
  have hperm := List.perm_insertionSort (relDesc env)
    (ids.filter (fun id => env.emb id && (env.typeOf id = t : Bool)))
  have hS_nodup : ((ids.filter (fun id => env.emb id && (env.typeOf id = t : Bool))).insertionSort
      (relDesc env)).Nodup := hperm.nodup_iff.mpr (hn.filter _)
  have hS_take_nodup := hS_nodup.sublist (List.take_sublist (MIN_PER_TYPE t) _)
  have hS_len : (((ids.filter (fun id => env.emb id && (env.typeOf id = t : Bool))).insertionSort
      (relDesc env)).take (MIN_PER_TYPE t)).length = MIN_PER_TYPE t := by
    rw [List.length_take, List.length_insertionSort]
    omega
  have hsubset : (((ids.filter (fun id => env.emb id && (env.typeOf id = t : Bool))).insertionSort
      (relDesc env)).take (MIN_PER_TYPE t)) ⊆
      (appendNew cov (((ids.filter (fun id => env.emb id && (env.typeOf id = t : Bool))).insertionSort
        (relDesc env)).take (MIN_PER_TYPE t))).filter
        (fun id => env.emb id && (env.typeOf id = t : Bool)) := by
    intro x hx
    rw [List.mem_filter]
    constructor
    · exact mem_appendNew_right cov hx
    · have hx2 : x ∈ ids.filter (fun id => env.emb id && (env.typeOf id = t : Bool)) :=
        hperm.mem_iff.mp (List.mem_of_mem_take hx)
      exact (List.mem_filter.mp hx2).2
  have := (List.subperm_of_subset hS_take_nodup hsubset).length_le
  rw [hS_len] at this
  exact this

theorem ensure_type_coverage_countType (env : SelEnv) (ids : List String)
    (t : String) (hn : ids.Nodup) (hpos : 0 < MIN_PER_TYPE t)
    (hcount : MIN_PER_TYPE t ≤ countType env t ids) :
    MIN_PER_TYPE t ≤ countType env t (ensure_type_coverage env ids) := by
  obtain ⟨l₁, l₂, hsplit⟩ := List.append_of_mem (MIN_pos_mem_type_order hpos)
  rw [ensure_type_coverage, hsplit, List.foldl_append, List.foldl_cons]
  exact le_trans
    (coverageStep_countType_target env ids (l₁.foldl (coverageStep env ids) []) t hn hpos hcount)
    (coverage_foldl_countType_mono env ids l₂ _ t)

/-- C5: for every duplicate-free cluster containing at least
`MIN_PER_TYPE t` resolvable items of a required content type `t`, the final
carousel selection (default `max_items = 15`) contains at least
`MIN_PER_TYPE t` resolvable items of type `t`, surviving hero insertion and
truncation. -/
theorem claim_C5_type_coverage (env : SelEnv) (ids : List String) (t : String)
    (hn : ids.Nodup) (hpos : 0 < MIN_PER_TYPE t)
    (hcount : MIN_PER_TYPE t ≤ countType env t ids) :
    MIN_PER_TYPE t ≤ countType env t (select_diverse_items env ids 15).ordered_items := by
  obtain ⟨x, hx_mem, hx_pred⟩ : ∃ x ∈ ids, (env.emb x && (env.typeOf x = t : Bool)) = true := by
    rcases hfl : ids.filter (fun id => env.emb id && (env.typeOf id = t : Bool)) with _ | ⟨y, ys⟩
    · rw [countType, hfl] at hcount
      simp at hcount
      omega
    · have : y ∈ ids.filter (fun id => env.emb id && (env.typeOf id = t : Bool)) := by
        rw [hfl]; exact List.mem_cons_self y ys
      obtain ⟨h1, h2⟩ := List.mem_filter.mp this
      exact ⟨y, h1, h2⟩
  rw [select_diverse_items]
  split
  · rename_i hempty
    rw [List.isEmpty_iff] at hempty
    rw [hempty] at hx_mem
    exact absurd hx_mem (List.not_mem_nil x)
  · dsimp only
    split
    · rename_i hres
      rw [List.isEmpty_iff] at hres
      have : x ∈ ids.filter (fun id => env.emb id) := by
        rw [List.mem_filter]
        exact ⟨hx_mem, (Bool.and_eq_true _ _).mp hx_pred |>.1⟩
      rw [hres] at this
      exact absurd this (List.not_mem_nil x)
    · set tc := ensure_type_coverage env ids with htc
      set rem := List.filter (fun id => decide (id ∉ tc)) ids with hrem
      set ms := if tc.length < 15 ∧ ¬rem.isEmpty = true then
          mmr_select env rem (15 - tc.length) (3 / 5) else [] with hms
      have htc_len : tc.length ≤ 6 := ensure_type_coverage_length env ids
      have htc_cnt : MIN_PER_TYPE t ≤ countType env t tc :=
        ensure_type_coverage_countType env ids t hn hpos hcount
      have hord_cnt : MIN_PER_TYPE t ≤ countType env t (tc ++ ms) := by
        rw [countType_append]
        omega
      cases hh : select_hero env ids with
      | none => exact hord_cnt
      | some h =>
        show MIN_PER_TYPE t ≤ countType env t
          (if h ∈ tc ++ ms then h :: (tc ++ ms).erase h else (h :: (tc ++ ms)).take 15)
        split
        · rename_i hmem
          rw [← countType_perm env t (List.perm_cons_erase hmem)]
          exact hord_cnt
        · have h15 : (h :: (tc ++ ms)).take 15 = h :: (tc ++ ms).take 14 :=
            List.take_succ_cons
          rw [h15, take_append_of_length_le (by omega), ← List.cons_append]
          rw [countType_append, countType]
          rw [List.filter_cons]
          split
          · rw [List.length_cons, ← countType]
            omega
          · rw [← countType]
            omega


unseal Rat.add Rat.mul Rat.inv Rat.sub Rat.ofScientific in
/-- Witness for C5: a two-paper cluster keeps both papers
(`MIN_PER_TYPE "paper" = 2`). -/
theorem claim_C5_type_coverage_witness :
    ((["a", "b"] : List String).Nodup ∧ 0 < MIN_PER_TYPE "paper" ∧
     MIN_PER_TYPE "paper" ≤ countType exEnvDistinct "paper" ["a", "b"]) ∧
    MIN_PER_TYPE "paper" ≤ countType exEnvDistinct "paper"
      (select_diverse_items exEnvDistinct ["a", "b"] 15).ordered_items :=
  ⟨⟨by decide, by decide, by decide⟩,
   claim_C5_type_coverage exEnvDistinct ["a", "b"] "paper" (by decide) (by decide)
     (by decide)⟩

theorem mmrScore_zero (env : SelEnv) (sel : List String) (y : String) :
    mmrScore env 0 sel y = -(maxSimTo env sel y) := by
  rw [mmrScore]
  ring

theorem mmrScore_one (env : SelEnv) (sel : List String) (y : String) :
    mmrScore env 1 sel y = env.rel y := by
  rw [mmrScore]
  ring

theorem foldl_map_pair {α β : Type} (f : β → β) (s1 s2 : β → α → β)
    (hstep : ∀ b x, s1 (f b) x = f (s2 b x)) :
    ∀ (l : List α) (b : β), l.foldl s1 (f b) = f (l.foldl s2 b) := by
  intro l
  induction l with
  | nil => intro b; rfl
  | cons y ys ih =>
    intro b
    rw [List.foldl_cons, List.foldl_cons, hstep, ih]

theorem pickBest_zero (env : SelEnv) (sel rem : List String) :
    pickBest env 0 sel rem =
      (diversePick env sel rem).map (fun p => (p.1, -p.2)) := by
  rw [pickBest, diversePick]
  have h0 : (none : Option (String × ℚ)) =
      Option.map (fun p => (p.1, -p.2)) (none : Option (String × ℚ)) := rfl
  rw [h0]
  refine foldl_map_pair _ _ _ ?_ rem none
  intro b y
  by_cases hy : env.emb y
  · simp only [if_pos hy]
    cases b with
    | none =>
      show some (y, mmrScore env 0 sel y) = some (y, -(maxSimTo env sel y))
      rw [mmrScore_zero]
    | some p =>
      obtain ⟨b1, b2⟩ := p
      show (if -b2 < mmrScore env 0 sel y then some (y, mmrScore env 0 sel y)
            else some (b1, -b2)) =
        Option.map (fun p => (p.1, -p.2))
          (if maxSimTo env sel y < b2 then some (y, maxSimTo env sel y) else some (b1, b2))
      rw [mmrScore_zero]
      by_cases hc : maxSimTo env sel y < b2
      · rw [if_pos (by linarith : -b2 < -(maxSimTo env sel y)), if_pos hc]
        rfl
      · rw [if_neg (by intro h2; apply hc; linarith : ¬ -b2 < -(maxSimTo env sel y)),
          if_neg hc]
        rfl
  · simp only [if_neg hy]

theorem mmr_go_zero (env : SelEnv) (fuel : ℕ) (sel rem : List String) :
    mmr_go env 0 fuel sel rem = greedyDiverse env fuel sel rem := by
  induction fuel generalizing sel rem with
  | zero => rfl
  | succ fuel ih =>
    rw [mmr_go, greedyDiverse]
    split
    · rfl
    · rw [pickBest_zero]
      cases hdp : diversePick env sel rem with
      | none => rfl
      | some p =>
        obtain ⟨b, bs⟩ := p
        show mmr_go env 0 fuel (sel ++ [b]) (rem.erase b) =
          greedyDiverse env fuel (sel ++ [b]) (rem.erase b)
        exact ih (sel ++ [b]) (rem.erase b)

theorem pickBest_isSome (env : SelEnv) (lam : ℚ) (sel : List String)
    {rem : List String} (h : ∃ id ∈ rem, env.emb id = true) :
    (pickBest env lam sel rem).isSome := by
  rw [pickBest]
  obtain ⟨x, hx, hxe⟩ := h
  have step_keeps : ∀ (l : List String) (acc : String × ℚ),
      (l.foldl (fun best id =>
        if env.emb id then
          match best with
          | none => some (id, mmrScore env lam sel id)
          | some (b, bs) =>
              if bs < mmrScore env lam sel id then some (id, mmrScore env lam sel id)
              else some (b, bs)
        else best) (some acc)).isSome := by
    intro l
    induction l with
    | nil => intro acc; rfl
    | cons y ys ih =>
      intro acc
      rw [List.foldl_cons]
      by_cases hy : env.emb y
      · rw [if_pos hy]
        cases hlt : decide (acc.2 < mmrScore env lam sel y) with
        | true => simpa [of_decide_eq_true hlt] using ih (y, mmrScore env lam sel y)
        | false =>
            have := of_decide_eq_false hlt
            simpa [this] using ih acc
      · rw [if_neg hy]
        exact ih acc
  induction rem with
  | nil => exact absurd hx (List.not_mem_nil x)
  | cons y ys ih =>
    rw [List.foldl_cons]
    rcases List.mem_cons.mp hx with rfl | hx2
    · rw [if_pos hxe]
      exact step_keeps ys (x, mmrScore env lam sel x)
    · by_cases hy : env.emb y
      · rw [if_pos hy]
        exact step_keeps ys (y, mmrScore env lam sel y)
      · rw [if_neg hy]
        exact ih hx2

theorem diversePick_mem {env : SelEnv} {sel rem : List String} {p : String × ℚ}
    (h : diversePick env sel rem = some p) : p.1 ∈ rem := by
  have h2 : pickBest env 0 sel rem = some (p.1, -p.2) := by
    rw [pickBest_zero, h]
    rfl
  have h3 := pickBest_mem h2
  exact h3

theorem diversePick_isSome (env : SelEnv) (sel : List String) {rem : List String}
    (h : ∃ id ∈ rem, env.emb id = true) : (diversePick env sel rem).isSome := by
  have h2 := pickBest_isSome env 0 sel h
  rw [pickBest_zero] at h2
  cases hdp : diversePick env sel rem with
  | none => rw [hdp] at h2; exact absurd h2 (by simp)
  | some p => rfl

theorem greedyDiverse_perm_all (env : SelEnv) (fuel : ℕ) (sel rem : List String)
    (hemb : ∀ x ∈ rem, env.emb x = true) (hfuel : rem.length ≤ fuel) :
    List.Perm (greedyDiverse env fuel sel rem) (sel ++ rem) := by
  induction fuel generalizing sel rem with
  | zero =>
    have : rem = [] := List.length_eq_zero.mp (Nat.le_zero.mp hfuel)
    rw [this, greedyDiverse, List.append_nil]
  | succ fuel ih =>
    rw [greedyDiverse]
    split
    · rename_i hre
      rw [List.isEmpty_iff] at hre
      rw [hre, List.append_nil]
    · rename_i hre
      rw [List.isEmpty_iff] at hre
      have hne : ∃ id ∈ rem, env.emb id = true := by
        cases rem with
        | nil => exact absurd rfl hre
        | cons y ys => exact ⟨y, List.mem_cons_self y ys, hemb y (List.mem_cons_self y ys)⟩
      obtain ⟨p, hp⟩ := Option.isSome_iff_exists.mp (diversePick_isSome env sel hne)
      rw [hp]
      obtain ⟨b, bs⟩ := p
      have hbm : b ∈ rem := diversePick_mem hp
      have h1 : List.Perm (greedyDiverse env fuel (sel ++ [b]) (rem.erase b))
          ((sel ++ [b]) ++ rem.erase b) := by
        refine ih (sel ++ [b]) (rem.erase b)
          (fun x hx => hemb x (List.mem_of_mem_erase hx)) ?_
        have := List.length_erase_of_mem hbm
        omega
      refine h1.trans ?_
      rw [List.append_assoc]
      refine List.Perm.append_left sel ?_
      show List.Perm ([b] ++ rem.erase b) rem
      rw [List.singleton_append]
      exact (List.perm_cons_erase hbm).symm

theorem pickBest_fold_max (env : SelEnv) (lam : ℚ) (sel : List String)
    (l : List String) (hemb : ∀ x ∈ l, env.emb x = true) (m0 : String) :
    ∃ m, l.foldl (fun best id =>
        if env.emb id then
          match best with
          | none => some (id, mmrScore env lam sel id)
          | some (b, bs) =>
              if bs < mmrScore env lam sel id then some (id, mmrScore env lam sel id)
              else some (b, bs)
        else best) (some (m0, mmrScore env lam sel m0)) =
      some (m, mmrScore env lam sel m) ∧
      (m = m0 ∨ m ∈ l) ∧ mmrScore env lam sel m0 ≤ mmrScore env lam sel m ∧
      ∀ x ∈ l, mmrScore env lam sel x ≤ mmrScore env lam sel m := by
  induction l generalizing m0 with
  | nil =>
    exact ⟨m0, rfl, .inl rfl, le_refl _, by simp⟩
  | cons y ys ih =>
    rw [List.foldl_cons]
    have hy : env.emb y = true := hemb y (List.mem_cons_self y ys)
    rw [if_pos hy]
    dsimp only
    by_cases hc : mmrScore env lam sel m0 < mmrScore env lam sel y
    · rw [if_pos hc]
      obtain ⟨m, h1, h2, h3, h4⟩ := ih (fun x hx => hemb x (List.mem_cons_of_mem y hx)) y
      refine ⟨m, h1, ?_, le_trans (le_of_lt hc) h3, ?_⟩
      · rcases h2 with rfl | h2
        · exact .inr (List.mem_cons_self m ys)
        · exact .inr (List.mem_cons_of_mem y h2)
      · intro x hx
        rcases List.mem_cons.mp hx with rfl | hx
        · exact h3
        · exact h4 x hx
    · rw [if_neg hc]
      obtain ⟨m, h1, h2, h3, h4⟩ := ih (fun x hx => hemb x (List.mem_cons_of_mem y hx)) m0
      refine ⟨m, h1, ?_, h3, ?_⟩
      · rcases h2 with rfl | h2
        · exact .inl rfl
        · exact .inr (List.mem_cons_of_mem y h2)
      · intro x hx
        rcases List.mem_cons.mp hx with rfl | hx
        · exact le_trans (not_lt.mp hc) h3
        · exact h4 x hx

theorem pickBest_max (env : SelEnv) (lam : ℚ) (sel : List String)
    {rem : List String} (hne : rem ≠ [])
    (hemb : ∀ x ∈ rem, env.emb x = true) :
    ∃ m, pickBest env lam sel rem = some (m, mmrScore env lam sel m) ∧ m ∈ rem ∧
      ∀ x ∈ rem, mmrScore env lam sel x ≤ mmrScore env lam sel m := by
  cases rem with
  | nil => exact absurd rfl hne
  | cons y ys =>
    rw [pickBest, List.foldl_cons, if_pos (hemb y (List.mem_cons_self y ys))]
    dsimp only
    obtain ⟨m, h1, h2, h3, h4⟩ :=
      pickBest_fold_max env lam sel ys (fun x hx => hemb x (List.mem_cons_of_mem y hx)) y
    refine ⟨m, h1, ?_, ?_⟩
    · rcases h2 with rfl | h2
      · exact List.mem_cons_self m ys
      · exact List.mem_cons_of_mem y h2
    · intro x hx
      rcases List.mem_cons.mp hx with rfl | hx
      · exact h3
      · exact h4 x hx

theorem insertionSort_head_max (env : SelEnv) {rem : List String} (hne : rem ≠ []) :
    ∃ b rest, rem.insertionSort (relDesc env) = b :: rest ∧ b ∈ rem ∧
      ∀ x ∈ rem, env.rel x ≤ env.rel b := by
  cases hsort : rem.insertionSort (relDesc env) with
  | nil =>
    have hperm := List.perm_insertionSort (relDesc env) rem
    rw [hsort] at hperm
    exact absurd hperm.symm.eq_nil hne
  | cons b rest =>
    have hperm := List.perm_insertionSort (relDesc env) rem
    rw [hsort] at hperm
    have hs := List.sorted_insertionSort (relDesc env) rem
    rw [hsort] at hs
    rw [List.sorted_cons] at hs
    refine ⟨b, rest, rfl, hperm.mem_iff.mp (List.mem_cons_self b rest), ?_⟩
    intro x hx
    rcases List.mem_cons.mp (hperm.symm.mem_iff.mp hx) with rfl | hx2
    · exact le_refl _
    · exact hs.1 x hx2

theorem sorted_perm_eq_of_distinct (env : SelEnv) :
    ∀ {l₁ l₂ : List String}, List.Perm l₁ l₂ →
    List.Sorted (relDesc env) l₁ → List.Sorted (relDesc env) l₂ →
    l₁.Pairwise (fun a b => env.rel a ≠ env.rel b) → l₁ = l₂
  | [], l₂, hperm, _, _, _ => hperm.symm.eq_nil.symm
  | a :: t₁, l₂, hperm, hs₁, hs₂, hd => by
    cases l₂ with
    | nil => exact absurd hperm.eq_nil (by simp)
    | cons b t₂ =>
      rw [List.sorted_cons] at hs₁ hs₂
      have hab : env.rel a = env.rel b := by
        have hbmem : b ∈ a :: t₁ := hperm.symm.mem_iff.mp (List.mem_cons_self b t₂)
        have hamem : a ∈ b :: t₂ := hperm.mem_iff.mp (List.mem_cons_self a t₁)
        have h1 : env.rel b ≤ env.rel a := by
          rcases List.mem_cons.mp hbmem with rfl | h
          · exact le_refl _
          · exact hs₁.1 b h
        have h2 : env.rel a ≤ env.rel b := by
          rcases List.mem_cons.mp hamem with rfl | h
          · exact le_refl _
          · exact hs₂.1 a h
        exact le_antisymm h2 h1
      have heqab : a = b := by
        by_contra hne
        have hbmem : b ∈ a :: t₁ := hperm.symm.mem_iff.mp (List.mem_cons_self b t₂)
        rcases List.mem_cons.mp hbmem with rfl | h
        · exact hne rfl
        · exact (List.rel_of_pairwise_cons hd h) hab
      subst heqab
      have htail := hperm.cons_inv
      rw [sorted_perm_eq_of_distinct env htail hs₁.2 hs₂.2 (List.Pairwise.of_cons hd)]

theorem insertionSort_erase_head (env : SelEnv) {rem : List String}
    {b : String} {rest : List String}
    (hsort : rem.insertionSort (relDesc env) = b :: rest)
    (hd : rem.Pairwise (fun a b => env.rel a ≠ env.rel b)) :
    (rem.erase b).insertionSort (relDesc env) = rest := by
  have hperm := List.perm_insertionSort (relDesc env) rem
  rw [hsort] at hperm
  have hp2 : List.Perm ((rem.erase b).insertionSort (relDesc env)) rest := by
    refine (List.perm_insertionSort (relDesc env) (rem.erase b)).trans ?_
    have h3 := hperm.symm.erase b
    rw [List.erase_cons_head] at h3
    exact h3
  have hd_erase : (rem.erase b).Pairwise (fun a b => env.rel a ≠ env.rel b) :=
    hd.sublist (List.erase_sublist b rem)
  have hd_sorted : ((rem.erase b).insertionSort (relDesc env)).Pairwise
      (fun a b => env.rel a ≠ env.rel b) :=
    ((List.perm_insertionSort (relDesc env) (rem.erase b)).pairwise_iff
      (fun hab he => hab he.symm)).mpr hd_erase
  have hs1 := List.sorted_insertionSort (relDesc env) (rem.erase b)
  have hs2 : List.Sorted (relDesc env) rest := by
    have := List.sorted_insertionSort (relDesc env) rem
    rw [hsort] at this
    exact this.of_cons
  exact sorted_perm_eq_of_distinct env hp2 hs1 hs2 hd_sorted

theorem mmr_go_one (env : SelEnv) (fuel : ℕ) (sel rem : List String)
    (hemb : ∀ x ∈ rem, env.emb x = true)
    (hd : rem.Pairwise (fun a b => env.rel a ≠ env.rel b)) :
    mmr_go env 1 fuel sel rem = sel ++ (rem.insertionSort (relDesc env)).take fuel := by
  induction fuel generalizing sel rem with
  | zero => rw [mmr_go, List.take_zero, List.append_nil]
  | succ fuel ih =>
    rw [mmr_go]
    split
    · rename_i hre
      rw [List.isEmpty_iff] at hre
      rw [hre]
      simp [List.insertionSort]
    · rename_i hre
      rw [List.isEmpty_iff] at hre
      obtain ⟨m, hpb, hm_mem, hm_max⟩ := pickBest_max env 1 sel hre hemb
      obtain ⟨b, rest, hsort, hb_mem, hb_max⟩ := insertionSort_head_max env hre
      have heq : m = b := by
        have h1 : env.rel m = env.rel b := by
          have hmb : env.rel m ≤ env.rel b := hb_max m hm_mem
          have hbm : env.rel b ≤ env.rel m := by
            have h2 := hm_max b hb_mem
            rwa [mmrScore_one, mmrScore_one] at h2
          exact le_antisymm hmb hbm
        by_contra hne
        have hsym : Symmetric (fun a b : String => env.rel a ≠ env.rel b) := by
          intro x y hab he
          exact hab he.symm
        exact (hd.forall hsym hm_mem hb_mem hne) h1
      subst heq
      rw [hpb]
      show mmr_go env 1 fuel (sel ++ [m]) (rem.erase m) =
        sel ++ (rem.insertionSort (relDesc env)).take (fuel + 1)
      rw [ih (sel ++ [m]) (rem.erase m)
        (fun x hx => hemb x (List.mem_of_mem_erase hx))
        (hd.sublist (List.erase_sublist m rem))]
      rw [insertionSort_erase_head env hsort hd, hsort, List.take_succ_cons,
        List.append_assoc]
      rfl

/-- C6: with every candidate resolvable and relevance scores pairwise
distinct (tie-free), MMR selection with `lambda = 1.0` returns the same items
as the pure top-k-by-relevance baseline, and with `lambda = 0.0` it returns
the maximally-diverse greedy selection ignoring relevance. -/
theorem claim_C6_lambda_degenerations (env : SelEnv) (cands : List String)
    (k : ℕ) (hemb : ∀ id ∈ cands, env.emb id = true)
    (hd : cands.Pairwise (fun a b => env.rel a ≠ env.rel b)) :
    List.Perm (mmr_select env cands k 1) (topKByRelevance env cands k) ∧
    List.Perm (mmr_select env cands k 0) (greedyDiverse env k [] cands) := by
  constructor
  · rw [mmr_select, topKByRelevance]
    split
    · rename_i hlen
      rw [List.take_of_length_le (by rw [List.length_insertionSort]; omega)]
      exact (List.perm_insertionSort (relDesc env) cands).symm
    · rw [mmr_go_one env k [] cands hemb hd, List.nil_append]
  · rw [mmr_select]
    split
    · rename_i hlen
      have h1 := greedyDiverse_perm_all env k [] cands hemb (by omega)
      rw [List.nil_append] at h1
      exact h1.symm
    · rw [mmr_go_zero]


unseal Rat.add Rat.mul Rat.inv Rat.sub Rat.ofScientific in
/-- Witness for C6 at a three-candidate set with distinct relevance scores
and two slots. -/
theorem claim_C6_lambda_degenerations_witness :
    ((∀ id ∈ ["a", "b", "c"], exEnvDistinct.emb id = true) ∧
     (["a", "b", "c"] : List String).Pairwise
       (fun a b => exEnvDistinct.rel a ≠ exEnvDistinct.rel b)) ∧
    (List.Perm (mmr_select exEnvDistinct ["a", "b", "c"] 2 1)
       (topKByRelevance exEnvDistinct ["a", "b", "c"] 2) ∧
     List.Perm (mmr_select exEnvDistinct ["a", "b", "c"] 2 0)
       (greedyDiverse exEnvDistinct 2 [] ["a", "b", "c"])) :=
  ⟨⟨by decide, by decide⟩,
   claim_C6_lambda_degenerations exEnvDistinct ["a", "b", "c"] 2 (by decide) (by decide)⟩

end TechEcon
